import Mathlib

/-!
Password generator (`src/app.js`): generator, strength estimator, history.

A shallow embedding of the pure parts of `app.js` and the properties of its
specification.

* A JavaScript string is the list of its UTF-16 code units (`JsString`); its
  `.length` is the length of that list and `str[i]` is the `i`-th code unit.
* `undefined` is `none`: an array of "one-character string or undefined" is a
  `List (Option Nat)`.
* The random source `crypto.getRandomValues` is a stream `rng : Nat → Nat`;
  the `pos`-th call reads `rng pos`, reduced modulo `2 ^ 32` (a `Uint32Array`
  cell).
* `localStorage` is the stored list of strings itself.
-/

namespace PasswordGenerator

/-! ## Strings -/

/-- A JavaScript string: its UTF-16 code units. -/
abbrev JsString := List Nat

/-- UTF-16 encoding of one Unicode scalar value. -/
def utf16 (c : Char) : List Nat :=
  if c.toNat < 0x10000 then [c.toNat]
  else [0xD800 + (c.toNat - 0x10000) / 0x400, 0xDC00 + (c.toNat - 0x10000) % 0x400]

/-- The JavaScript string denoted by a string literal. -/
def js (s : String) : JsString := (s.toList.map utf16).flatten

/-! ## Generator -/

/-- `const AMBIGUOUS = new Set(["O", "0", "I", "l", "1", "|", backtick, apostrophe,
double quote, backslash])`, as code units. -/
def AMBIGUOUS : List Nat := [79, 48, 73, 108, 49, 124, 96, 39, 34, 92]

/-- `removeAmbiguous(str)`: `[...str].filter((c) => !AMBIGUOUS.has(c)).join("")`.
The spread iterates by code point; a surrogate pair is a two-unit element, never
a member of `AMBIGUOUS` (whose members are single units outside the surrogate
range), so filtering code units gives the same string. -/
def removeAmbiguous (str : JsString) : JsString :=
  str.filter (fun c => !AMBIGUOUS.contains c)

/-- `randInt(max)` on the word `w` read from the random source:
`arr[0] % max` with `arr[0]` a 32-bit unsigned cell; `x % 0` is `NaN`, here `none`. -/
def randInt (max : Nat) (w : Nat) : Option Nat :=
  if max = 0 then none else some (w % 2 ^ 32 % max)

/-- Array or string read `a[k]` where `k` is a number or `NaN`: `undefined`
(`none`) when `k` is `NaN` or out of range. -/
def readAt {α : Type} (a : List (Option α)) (k : Option Nat) : Option α :=
  match k with
  | some i => (a[i]?).join
  | none => none

/-- `choice(str)`: `str[randInt(str.length)]`, a one-unit string or `undefined`. -/
def choice (str : JsString) (w : Nat) : Option Nat :=
  match randInt str.length w with
  | some i => str[i]?
  | none => none

/-- Array write `a[k] = v` for an index inside the array; a `NaN` key writes a
property that is no element. (A write past the end would grow the array; `shuffle`
only writes at `i < arr.length` and at `j ≤ i`.) -/
def writeAt {α : Type} (a : List (Option α)) (k : Option Nat) (v : Option α) :
    List (Option α) :=
  match k with
  | some i => a.set i v
  | none => a

/-- The destructuring swap `[arr[i], arr[j]] = [arr[j], arr[i]]`: both reads
happen first, then `arr[i]` and `arr[j]` are written in that order. -/
def swapAt {α : Type} (arr : List (Option α)) (i : Nat) (j : Option Nat) :
    List (Option α) :=
  let aj := readAt arr j
  let ai := readAt arr (some i)
  writeAt (writeAt arr (some i) aj) j ai

/-- The loop of `shuffle`, entered with loop variable `i` and the next unread
position `pos` of the random source: `for (...; i > 0; i--) { j = randInt(i + 1);
swap }`. -/
def shuffleLoop {α : Type} (rng : Nat → Nat) :
    Nat → Nat → List (Option α) → List (Option α)
  | 0, _, arr => arr
  | i + 1, pos, arr =>
    let j := randInt (i + 1 + 1) (rng pos)
    shuffleLoop rng i (pos + 1) (swapAt arr (i + 1) j)

/-- `shuffle(arr)`, reading the random source from position `pos`. -/
def shuffle {α : Type} (rng : Nat → Nat) (pos : Nat) (arr : List (Option α)) :
    List (Option α) :=
  shuffleLoop rng (arr.length - 1) pos arr

/-- The argument object of `generatePassword`, with its default values. -/
structure Config where
  length : Int := 16
  upper : Bool := true
  lower : Bool := true
  digits : Bool := true
  symbols : Bool := true
  excludeAmb : Bool := true
  deriving Repr

/-- The uppercase class `upp` after the `if (excludeAmb)` block. -/
def upp (excludeAmb : Bool) : JsString :=
  let s := js "ABCDEFGHIJKLMNOPQRSTUVWXYZ"
  if excludeAmb then removeAmbiguous s else s

/-- The lowercase class `low` after the `if (excludeAmb)` block. -/
def low (excludeAmb : Bool) : JsString :=
  let s := js "abcdefghijklmnopqrstuvwxyz"
  if excludeAmb then removeAmbiguous s else s

/-- The digit class `dig` after the `if (excludeAmb)` block. -/
def dig (excludeAmb : Bool) : JsString :=
  let s := js "0123456789"
  if excludeAmb then removeAmbiguous s else s

/-- The symbol class `sym` after the `if (excludeAmb)` block. -/
def sym (excludeAmb : Bool) : JsString :=
  let s := js "!@#$%^&*()-_=+[]\x7b\x7d;:,.?/"
  if excludeAmb then removeAmbiguous s else s

/-- The array `categories` after the four conditional pushes. -/
def categories (cfg : Config) : List JsString :=
  (if cfg.upper then [upp cfg.excludeAmb] else []) ++
  (if cfg.lower then [low cfg.excludeAmb] else []) ++
  (if cfg.digits then [dig cfg.excludeAmb] else []) ++
  (if cfg.symbols then [sym cfg.excludeAmb] else [])

/-- The number of enabled categories: the number of flags set. -/
def enabledCount (cfg : Config) : Nat :=
  cfg.upper.toNat + cfg.lower.toNat + cfg.digits.toNat + cfg.symbols.toNat

/-- `categories.map((cat) => choice(cat))`: one draw per category, in order, the
first at position `pos` of the random source. -/
def mapChoice (rng : Nat → Nat) : Nat → List JsString → List (Option Nat)
  | _, [] => []
  | pos, cat :: rest => choice cat (rng pos) :: mapChoice rng (pos + 1) rest

/-- The completion loop `for (let i = pwd.length; i < length; i++)
pwd.push(choice(alphabet))`, with `n` iterations left. -/
def fill (rng : Nat → Nat) (alphabet : JsString) :
    Nat → Nat → List (Option Nat) → List (Option Nat)
  | 0, _, pwd => pwd
  | n + 1, pos, pwd => fill rng alphabet n (pos + 1) (pwd ++ [choice alphabet (rng pos)])

/-- `pwd.join("")` on an array of one-unit strings: `undefined` joins as the
empty string. -/
def joinChars (pwd : List (Option Nat)) : JsString :=
  (pwd.map (fun o => match o with
    | some c => [c]
    | none => [])).flatten

/-- `generatePassword(cfg)` on the random source `rng`: the thrown `Error`'s
message, or the returned password. The completion loop runs
`length - pwd.length` times (no time when that is negative). Every element of
`pwd` took one read of the random source, so the next unread position is
`pwd.length` throughout. -/
def generatePassword (cfg : Config) (rng : Nat → Nat) : Except String JsString :=
  let cats := categories cfg
  if cfg.length < 4 then
    .error "La longueur doit être au minimum 4."
  else if cats.length = 0 then
    .error "Active au moins une catégorie."
  else if cfg.length < cats.length then
    .error ("Longueur trop petite: minimum " ++ toString cats.length ++ " avec ces options.")
  else
    let pwd := mapChoice rng 0 cats
    let alphabet := cats.flatten
    let pwd := fill rng alphabet (cfg.length - pwd.length).toNat pwd.length pwd
    let pwd := shuffle rng pwd.length pwd
    .ok (joinChars pwd)

/-! ## Strength estimator -/

/-- The value returned by `estimateStrength`. -/
structure Strength where
  score : Int
  label : String
  deriving DecidableEq, Repr

/-- Line terminators, the code units `.` does not match in a regular expression
without the `s` flag: LF, CR, U+2028, U+2029. -/
def isLineTerminator (u : Nat) : Bool :=
  u == 0x0A || u == 0x0D || u == 0x2028 || u == 0x2029

/-- The class `[A-Z]`. -/
def isUpperAZ (u : Nat) : Bool := 65 ≤ u && u ≤ 90

/-- The class `[a-z]`. -/
def isLowerAZ (u : Nat) : Bool := 97 ≤ u && u ≤ 122

/-- The class `[0-9]`. -/
def isDigit09 (u : Nat) : Bool := 48 ≤ u && u ≤ 57

/-- The negated class `[^A-Za-z0-9]`. -/
def isNotAlnum (u : Nat) : Bool := !(isUpperAZ u || isLowerAZ u || isDigit09 u)

/-- `/^(.)\1+$/.test(pwd)` (no flags): from the start of the input, one unit
that is no line terminator, then that same unit one or more times, then the end
of the input. -/
def testWholeRepeat (pwd : JsString) : Bool :=
  match pwd with
  | c :: d :: rest => !isLineTerminator c && (d :: rest).all (fun x => x == c)
  | _ => false

/-- `/(.)\1\1/.test(pwd)` (no flags): at some position, one unit that is no
line terminator followed by that same unit twice. -/
def testTripleRun : JsString → Bool
  | a :: b :: c :: rest =>
    (!isLineTerminator a && b == a && c == a) || testTripleRun (b :: c :: rest)
  | _ => false

/-- `[hasUpper, hasLower, hasDigit, hasSym].filter(Boolean).length`. -/
def countTrue (flags : List Bool) : Int := (flags.filter id).length

/-- `estimateStrength(pwd)`. -/
def estimateStrength (pwd : JsString) : Strength :=
  let score : Int := 0
  if pwd.isEmpty then { score := 0, label := "—" } else
  let score := if pwd.length ≥ 8 then score + 1 else score
  let score := if pwd.length ≥ 12 then score + 1 else score
  let score := if pwd.length ≥ 16 then score + 1 else score
  let score := if pwd.length ≥ 24 then score + 1 else score
  let hasUpper := pwd.any isUpperAZ
  let hasLower := pwd.any isLowerAZ
  let hasDigit := pwd.any isDigit09
  let hasSym := pwd.any isNotAlnum
  let score := score + countTrue [hasUpper, hasLower, hasDigit, hasSym]
  let score := if testWholeRepeat pwd then 0 else score
  let score := if testTripleRun pwd then score - 1 else score
  let score := max 0 (min score 10)
  let label := "Faible"
  let label := if score ≥ 4 then "Moyen" else label
  let label := if score ≥ 7 then "Fort" else label
  let label := if score ≥ 9 then "Très fort" else label
  { score := score, label := label }

/-! ### The scoring rules in the words of the specification -/

/-- Specification, `L`: the number of thresholds among 8, 12, 16, 24 that the
length of the password reaches. -/
def lengthPoints (pwd : JsString) : Int :=
  (([8, 12, 16, 24] : List Nat).filter (fun t => t ≤ pwd.length)).length

/-- Specification, `D`: the number of character types present among uppercase
letter, lowercase letter, digit, and non-alphanumeric symbol (letters and digits
being the ASCII ones of the character classes). -/
def typePoints (pwd : JsString) : Int :=
  (if ∃ u ∈ pwd, 65 ≤ u ∧ u ≤ 90 then 1 else 0) +
  (if ∃ u ∈ pwd, 97 ≤ u ∧ u ≤ 122 then 1 else 0) +
  (if ∃ u ∈ pwd, 48 ≤ u ∧ u ≤ 57 then 1 else 0) +
  (if ∃ u ∈ pwd, ¬ (65 ≤ u ∧ u ≤ 90) ∧ ¬ (97 ≤ u ∧ u ≤ 122) ∧ ¬ (48 ≤ u ∧ u ≤ 57)
    then 1 else 0)

/-- Specification: the password consists of one single character repeated for
its whole length (length at least 1). -/
def IsSingleRepeated (pwd : JsString) : Prop :=
  ∃ c ∈ pwd, pwd = List.replicate pwd.length c

instance (pwd : JsString) : Decidable (IsSingleRepeated pwd) := by
  unfold IsSingleRepeated; infer_instance

/-- Specification as written: the password contains a run of 3 or more identical
consecutive characters, whatever the character. -/
def HasRunOfThree (pwd : JsString) : Prop :=
  ∃ c ∈ pwd, [c, c, c] <:+: pwd

instance (pwd : JsString) : Decidable (HasRunOfThree pwd) := by
  unfold HasRunOfThree; infer_instance

/-- Specification as amended: the password contains a run of 3 or more identical
consecutive characters that are not a line terminator. -/
def HasVisibleRunOfThree (pwd : JsString) : Prop :=
  ∃ c ∈ pwd, isLineTerminator c = false ∧ [c, c, c] <:+: pwd

instance (pwd : JsString) : Decidable (HasVisibleRunOfThree pwd) := by
  unfold HasVisibleRunOfThree; infer_instance

/-- Specification: clamping to the closed interval `[0, 10]`. -/
def clampScore (x : Int) : Int :=
  if x < 0 then 0 else if 10 < x then 10 else x

/-- Specification: the label of a clamped score, thresholds evaluated from the
highest down, with the labels the code returns. -/
def labelOfScore (score : Int) : String :=
  if score ≥ 9 then "Très fort"
  else if score ≥ 7 then "Fort"
  else if score ≥ 4 then "Moyen"
  else "Faible"

/-! ## History -/

/-- `const HISTORY_LIMIT = 10`. -/
def HISTORY_LIMIT : Nat := 10

/-- `pushToHistory(pwd)` as a transformer of the stored list: the list passed to
`saveHistory`, or the stored list untouched when `pwd` is empty (early return). -/
def pushToHistory (pwd : JsString) (stored : List JsString) : List JsString :=
  if pwd.isEmpty then stored else
  let list := stored
  let list := list.filter (fun x => x != pwd)
  let list := pwd :: list
  let list := if list.length > HISTORY_LIMIT then list.take HISTORY_LIMIT else list
  list

/-- The list saved by the `clearHistory` button: `saveHistory([])`. -/
def clearHistory (_stored : List JsString) : List JsString := []

/-! ## Auxiliary notions: score before the clamp, swaps, draws, word counts -/

/-- The value of `score` in `estimateStrength(pwd)` on a non-empty `pwd` right
before the line `score = Math.max(0, Math.min(score, 10))`. -/
def scoreBeforeClamp (pwd : JsString) : Int :=
  let score : Int := 0
  let score := if pwd.length ≥ 8 then score + 1 else score
  let score := if pwd.length ≥ 12 then score + 1 else score
  let score := if pwd.length ≥ 16 then score + 1 else score
  let score := if pwd.length ≥ 24 then score + 1 else score
  let hasUpper := pwd.any isUpperAZ
  let hasLower := pwd.any isLowerAZ
  let hasDigit := pwd.any isDigit09
  let hasSym := pwd.any isNotAlnum
  let score := score + countTrue [hasUpper, hasLower, hasDigit, hasSym]
  let score := if testWholeRepeat pwd then 0 else score
  let score := if testTripleRun pwd then score - 1 else score
  score

/-- The message of the third check of `generatePassword`, for `n` categories. -/
def tooSmallMessage (n : Nat) : String :=
  "Longueur trop petite: minimum " ++ toString n ++ " avec ces options."

/-- The swaps `[arr[i], arr[j]] = [arr[j], arr[i]]` that the loop of `shuffle`
performs, as index pairs `(i, j)` in execution order, when entered with loop
variable `i` at position `pos` of the random source. -/
def shuffleSwaps (rng : Nat → Nat) : Nat → Nat → List (Nat × Option Nat)
  | 0, _ => []
  | i + 1, pos => (i + 1, randInt (i + 1 + 1) (rng pos)) :: shuffleSwaps rng i (pos + 1)

/-- The value `j = randInt(i + 1)` that `shuffle` draws at loop variable `i` on
an array of length `n`, reading the random source from position `pos`: the loop
starts at `n - 1` and reaches `i` after `n - 1 - i` draws. -/
def drawAt (rng : Nat → Nat) (pos n i : Nat) : Option Nat :=
  randInt (i + 1) (rng (pos + (n - 1 - i)))

/-- The number of 32-bit words `w` on which `randInt(max)` returns `r`. -/
def wordsGiving (max r : Nat) : Nat :=
  Nat.count (fun w => randInt max w = some r) (2 ^ 32)

/-- The number of 32-bit words `w` on which `choice(str)` returns the unit `c`. -/
def wordsChoosing (str : JsString) (c : Nat) : Nat :=
  Nat.count (fun w => choice str w = some c) (2 ^ 32)

/-! ## Lemmas on the generator -/

/-- Exchanging two cells of a list gives a permutation of it. -/
theorem set_set_perm_aux {β : Type} (as : List β) (i j : Nat) (hi : i < as.length)
    (hj : j < as.length) :
    ((as.set i (as.get ⟨j, hj⟩)).set j (as.get ⟨i, hi⟩)).Perm as := by
  classical
  rw [List.perm_iff_count]
  intro a
  have hj2 : j < (as.set i (as.get ⟨j, hj⟩)).length := by simpa using hj
  rw [List.count_set _ _ _ _ hj2, List.count_set _ _ _ _ hi]
  have h1 := List.count_pos_iff.mpr (List.get_mem as i hi)
  have h2 := List.count_pos_iff.mpr (List.get_mem as j hj)
  simp only [List.get_eq_getElem, List.getElem_set, beq_iff_eq] at *
  by_cases hij : i = j
  · subst hij
    simp only [if_true]
    split_ifs with h <;> [(subst h; omega); omega]
  · simp only [hij, if_false]
    split_ifs with ha hb hb <;> first | omega | (subst ha; omega)

/-- A draw below a positive bound is a number below the bound. -/
theorem randInt_pos (max w : Nat) (h : 0 < max) :
    ∃ k, randInt max w = some k ∧ k < max := by
  refine ⟨w % 2 ^ 32 % max, ?_, Nat.mod_lt _ h⟩
  simp [randInt, Nat.pos_iff_ne_zero.mp h]

/-- The swap of `shuffle` at two indices inside the array permutes it. -/
theorem swapAt_perm {α : Type} (arr : List (Option α)) (i j : Nat)
    (hi : i < arr.length) (hj : j < arr.length) :
    (swapAt arr i (some j)).Perm arr := by
  have h := set_set_perm_aux arr i j hi hj
  simpa [swapAt, readAt, writeAt, List.getElem?_eq_getElem hi, List.getElem?_eq_getElem hj]
    using h

/-- The loop of `shuffle` permutes the array when it starts inside it. -/
theorem shuffleLoop_perm {α : Type} (rng : Nat → Nat) :
    ∀ (i pos : Nat) (arr : List (Option α)), i < arr.length →
      (shuffleLoop rng i pos arr).Perm arr
  | 0, _, _, _ => List.Perm.refl _
  | i + 1, pos, arr, hi => by
    obtain ⟨j, hj, hlt⟩ := randInt_pos (i + 1 + 1) (rng pos) (Nat.succ_pos _)
    have hsw : (swapAt arr (i + 1) (some j)).Perm arr :=
      swapAt_perm arr (i + 1) j hi (by omega)
    have hlen : i < (swapAt arr (i + 1) (some j)).length := by
      rw [hsw.length_eq]; omega
    simp only [shuffleLoop, hj]
    exact (shuffleLoop_perm rng i (pos + 1) _ hlen).trans hsw

/-- Every run of `shuffle` returns a permutation of its argument. -/
theorem shuffle_perm {α : Type} (rng : Nat → Nat) (pos : Nat) (arr : List (Option α)) :
    (shuffle rng pos arr).Perm arr := by
  cases arr with
  | nil => simp [shuffle, shuffleLoop]
  | cons a as => exact shuffleLoop_perm rng _ pos _ (by simp)

/-- A draw from a non-empty string is one of its code units. -/
theorem choice_mem (str : JsString) (w : Nat) (h : str ≠ []) :
    ∃ c, choice str w = some c ∧ c ∈ str := by
  obtain ⟨k, hk, hlt⟩ := randInt_pos str.length w (List.length_pos.mpr h)
  refine ⟨str.get ⟨k, hlt⟩, ?_, List.get_mem _ _ _⟩
  simp [choice, hk, List.getElem?_eq_getElem hlt]

/-- The seeding draws: one code unit of each category, in order. -/
theorem mapChoice_spec (rng : Nat → Nat) :
    ∀ (cats : List JsString) (pos : Nat), (∀ cat ∈ cats, cat ≠ []) →
      ∃ cs : List Nat, mapChoice rng pos cats = cs.map some ∧
        List.Forall₂ (fun c cat => c ∈ cat) cs cats
  | [], _, _ => ⟨[], rfl, List.Forall₂.nil⟩
  | cat :: rest, pos, h => by
    obtain ⟨c, hc, hmem⟩ := choice_mem cat (rng pos) (h cat (List.mem_cons_self _ _))
    obtain ⟨cs, hcs, hall⟩ := mapChoice_spec rng rest (pos + 1)
      (fun x hx => h x (List.mem_cons_of_mem _ hx))
    exact ⟨c :: cs, by simp [mapChoice, hc, hcs], List.Forall₂.cons hmem hall⟩

/-- The completion loop appends `n` code units of the alphabet. -/
theorem fill_spec (rng : Nat → Nat) (alphabet : JsString) (h : alphabet ≠ []) :
    ∀ (n pos : Nat) (cs : List Nat),
      ∃ ex : List Nat, fill rng alphabet n pos (cs.map some) = (cs ++ ex).map some ∧
        ex.length = n ∧ ∀ c ∈ ex, c ∈ alphabet
  | 0, _, cs => ⟨[], by simp [fill], rfl, by simp⟩
  | n + 1, pos, cs => by
    obtain ⟨c, hc, hmem⟩ := choice_mem alphabet (rng pos) h
    obtain ⟨ex, hex, hlen, hall⟩ := fill_spec rng alphabet h n (pos + 1) (cs ++ [c])
    refine ⟨c :: ex, ?_, by simp [hlen], ?_⟩
    · simp only [fill, hc]
      have : cs.map some ++ [some c] = (cs ++ [c]).map some := by simp
      rw [this, hex]; simp
    · intro x hx
      rcases List.mem_cons.mp hx with rfl | hx
      · exact hmem
      · exact hall x hx

/-- Joining an array of one-unit strings keeps exactly its defined cells. -/
theorem joinChars_eq_filterMap (pwd : List (Option Nat)) :
    joinChars pwd = pwd.filterMap id := by
  induction pwd with
  | nil => rfl
  | cons o rest ih =>
    cases o with
    | none => simpa [joinChars] using ih
    | some c => simpa [joinChars] using ih

/-- Joining respects permutations; on an array without `undefined` it is the
list of the units. -/
theorem joinChars_perm (pwd : List (Option Nat)) (cs : List Nat)
    (h : pwd.Perm (cs.map some)) : (joinChars pwd).Perm cs := by
  rw [joinChars_eq_filterMap]
  have := h.filterMap id
  simpa [List.filterMap_map] using this

/-- Each of the four classes is non-empty, with or without ambiguous characters. -/
theorem classes_ne_nil (b : Bool) :
    upp b ≠ [] ∧ low b ≠ [] ∧ dig b ≠ [] ∧ sym b ≠ [] := by
  cases b <;> decide

/-- Every pushed category is one of the four classes. -/
theorem mem_categories (cfg : Config) (cat : JsString) :
    cat ∈ categories cfg ↔
      (cfg.upper = true ∧ cat = upp cfg.excludeAmb) ∨
      (cfg.lower = true ∧ cat = low cfg.excludeAmb) ∨
      (cfg.digits = true ∧ cat = dig cfg.excludeAmb) ∨
      (cfg.symbols = true ∧ cat = sym cfg.excludeAmb) := by
  obtain ⟨len, u, l, d, s, e⟩ := cfg
  cases u <;> cases l <;> cases d <;> cases s <;> simp [categories]

/-- No pushed category is empty. -/
theorem categories_ne_nil (cfg : Config) : ∀ cat ∈ categories cfg, cat ≠ [] := by
  intro cat hcat
  obtain ⟨h1, h2, h3, h4⟩ := classes_ne_nil cfg.excludeAmb
  rcases (mem_categories cfg cat).mp hcat with ⟨_, rfl⟩ | ⟨_, rfl⟩ | ⟨_, rfl⟩ | ⟨_, rfl⟩ <;>
    assumption

/-- The number of pushed categories is the number of flags set, at most four. -/
theorem categories_length (cfg : Config) :
    (categories cfg).length =
      cfg.upper.toNat + cfg.lower.toNat + cfg.digits.toNat + cfg.symbols.toNat := by
  obtain ⟨len, u, l, d, s, e⟩ := cfg
  cases u <;> cases l <;> cases d <;> cases s <;> rfl

/-- At most four categories are pushed. -/
theorem categories_length_le (cfg : Config) : (categories cfg).length ≤ 4 := by
  rw [categories_length]
  cases cfg.upper <;> cases cfg.lower <;> cases cfg.digits <;> cases cfg.symbols <;> decide

/-- The body of `generatePassword` after the three checks: the password is a
rearrangement of one unit per category followed by units of the alphabet. -/
theorem generatePassword_shape (cfg : Config) (rng : Nat → Nat)
    (hlen : 4 ≤ cfg.length) (hcat : categories cfg ≠ []) :
    ∃ (s seeds ex : List Nat), generatePassword cfg rng = .ok s ∧
      s.Perm (seeds ++ ex) ∧
      List.Forall₂ (fun c cat => c ∈ cat) seeds (categories cfg) ∧
      (ex.length : Int) = cfg.length - (categories cfg).length ∧
      ∀ c ∈ ex, c ∈ (categories cfg).flatten := by
  have hle := categories_length_le cfg
  have hpos : 0 < (categories cfg).length := List.length_pos.mpr hcat
  obtain ⟨seeds, hseeds, hall⟩ := mapChoice_spec rng (categories cfg) 0 (categories_ne_nil cfg)
  have hslen : seeds.length = (categories cfg).length := hall.length_eq
  have halpha : (categories cfg).flatten ≠ [] := by
    obtain ⟨cat, hmem⟩ := List.exists_mem_of_ne_nil _ hcat
    obtain ⟨c, hc⟩ := List.exists_mem_of_ne_nil _ (categories_ne_nil cfg cat hmem)
    exact List.ne_nil_of_mem (List.mem_flatten.mpr ⟨cat, hmem, hc⟩)
  obtain ⟨ex, hex, hexlen, hexmem⟩ := fill_spec rng (categories cfg).flatten halpha
    (cfg.length - ((categories cfg).length : Int)).toNat seeds.length seeds
  refine ⟨joinChars (shuffle rng ((seeds ++ ex).map some).length ((seeds ++ ex).map some)),
    seeds, ex, ?_, ?_, hall, ?_, hexmem⟩
  · have h1 : ¬ cfg.length < 4 := by omega
    have h2 : ¬ (categories cfg).length = 0 := by omega
    have h3 : ¬ cfg.length < ((categories cfg).length : Int) := by omega
    have h4 : (mapChoice rng 0 (categories cfg)).length = seeds.length := by
      rw [hseeds]; simp
    simp only [generatePassword, h1, h2, h3, if_false, h4]
    rw [hseeds, hslen] at *
    rw [hex]
  · exact joinChars_perm _ _ (shuffle_perm rng _ _)
  · rw [hexlen]; omega

/-- Some category is pushed exactly when some flag is set. -/
theorem categories_ne_nil_iff (cfg : Config) :
    categories cfg ≠ [] ↔
      (cfg.upper = true ∨ cfg.lower = true ∨ cfg.digits = true ∨ cfg.symbols = true) := by
  obtain ⟨len, u, l, d, s, e⟩ := cfg
  cases u <;> cases l <;> cases d <;> cases s <;> simp [categories]

/-- Related lists: every right element has a related left element. -/
theorem forall₂_exists_left {β γ : Type} {R : β → γ → Prop} :
    ∀ {l₁ : List β} {l₂ : List γ}, List.Forall₂ R l₁ l₂ → ∀ b ∈ l₂, ∃ a ∈ l₁, R a b
  | _, _, List.Forall₂.nil, _, hb => by simp at hb
  | _, _, List.Forall₂.cons hr hrest, b, hb => by
    rcases List.mem_cons.mp hb with rfl | hb
    · exact ⟨_, List.mem_cons_self _ _, hr⟩
    · obtain ⟨a, ha, hab⟩ := forall₂_exists_left hrest b hb
      exact ⟨a, List.mem_cons_of_mem _ ha, hab⟩

/-- Related lists: every left element has a related right element. -/
theorem forall₂_exists_right {β γ : Type} {R : β → γ → Prop} :
    ∀ {l₁ : List β} {l₂ : List γ}, List.Forall₂ R l₁ l₂ → ∀ a ∈ l₁, ∃ b ∈ l₂, R a b
  | _, _, List.Forall₂.nil, _, ha => by simp at ha
  | _, _, List.Forall₂.cons hr hrest, a, ha => by
    rcases List.mem_cons.mp ha with rfl | ha
    · exact ⟨_, List.mem_cons_self _ _, hr⟩
    · obtain ⟨b, hb, hab⟩ := forall₂_exists_right hrest a ha
      exact ⟨b, List.mem_cons_of_mem _ hb, hab⟩

/-- A returned password holds a unit of every pushed category, and only units
of the combined alphabet. -/
theorem generatePassword_members (cfg : Config) (rng : Nat → Nat)
    (hlen : 4 ≤ cfg.length) (hcat : categories cfg ≠ []) :
    ∃ s : JsString, generatePassword cfg rng = .ok s ∧
      (s.length : Int) = cfg.length ∧
      (∀ cat ∈ categories cfg, ∃ c ∈ s, c ∈ cat) ∧
      (∀ c ∈ s, c ∈ (categories cfg).flatten) := by
  obtain ⟨s, seeds, ex, hs, hperm, hall, hexlen, hexmem⟩ :=
    generatePassword_shape cfg rng hlen hcat
  refine ⟨s, hs, ?_, ?_, ?_⟩
  · have := hall.length_eq
    rw [hperm.length_eq, List.length_append]
    push_cast
    omega
  · intro cat hmem
    obtain ⟨c, hc, hcc⟩ := forall₂_exists_left hall cat hmem
    exact ⟨c, hperm.mem_iff.mpr (List.mem_append_left _ hc), hcc⟩
  · intro c hc
    rcases List.mem_append.mp (hperm.mem_iff.mp hc) with h | h
    · obtain ⟨cat, hcat, hcc⟩ := forall₂_exists_right hall c h
      exact List.mem_flatten.mpr ⟨cat, hcat, hcc⟩
    · exact hexmem c h

/-- With `excludeAmb` no class holds an ambiguous character. -/
theorem not_ambiguous_of_mem_categories (cfg : Config) (he : cfg.excludeAmb = true)
    (c : Nat) (hc : c ∈ (categories cfg).flatten) : c ∉ AMBIGUOUS := by
  obtain ⟨cat, hcat, hmem⟩ := List.mem_flatten.mp hc
  have key : ∀ str : JsString, c ∈ removeAmbiguous str → c ∉ AMBIGUOUS := by
    intro str h
    have := (List.mem_filter.mp h).2
    simpa using this
  rcases (mem_categories cfg cat).mp hcat with ⟨_, rfl⟩ | ⟨_, rfl⟩ | ⟨_, rfl⟩ | ⟨_, rfl⟩ <;>
    · simp only [upp, low, dig, sym, he, if_true] at hmem
      exact key _ hmem

/-! ## Claims on the generator -/

/-- C1: for every config with integer length at least 4 and at least one
category enabled, and every random source, `generatePassword` returns a string
of exactly `length` code units. -/
theorem generatePassword_length (cfg : Config) (rng : Nat → Nat)
    (hlen : 4 ≤ cfg.length)
    (hcat : cfg.upper = true ∨ cfg.lower = true ∨ cfg.digits = true ∨ cfg.symbols = true) :
    ∃ s : JsString, generatePassword cfg rng = .ok s ∧ (s.length : Int) = cfg.length := by
  obtain ⟨s, hs, hl, _, _⟩ :=
    generatePassword_members cfg rng hlen ((categories_ne_nil_iff cfg).mpr hcat)
  exact ⟨s, hs, hl⟩

/-- Witness of C1: the default config (length 16, all classes, no ambiguous
characters) on a fixed random source. -/
theorem generatePassword_length_witness :
    ∃ s : JsString, generatePassword {} (fun n => 7919 * n + 13) = .ok s ∧
      (s.length : Int) = (16 : Int) :=
  generatePassword_length {} (fun n => 7919 * n + 13) (by decide) (Or.inl rfl)

/-- C2: for every valid config, every value of `excludeAmb` and every random
source, the returned password (after the final shuffle) holds, for each enabled
category, at least one code unit of that category's class, the class being the
filtered one when `excludeAmb` is set. -/
theorem generatePassword_covers (cfg : Config) (rng : Nat → Nat)
    (hlen : 4 ≤ cfg.length)
    (hcat : cfg.upper = true ∨ cfg.lower = true ∨ cfg.digits = true ∨ cfg.symbols = true) :
    ∃ s : JsString, generatePassword cfg rng = .ok s ∧
      (cfg.upper = true → ∃ c ∈ s, c ∈ upp cfg.excludeAmb) ∧
      (cfg.lower = true → ∃ c ∈ s, c ∈ low cfg.excludeAmb) ∧
      (cfg.digits = true → ∃ c ∈ s, c ∈ dig cfg.excludeAmb) ∧
      (cfg.symbols = true → ∃ c ∈ s, c ∈ sym cfg.excludeAmb) := by
  obtain ⟨s, hs, _, hcov, _⟩ :=
    generatePassword_members cfg rng hlen ((categories_ne_nil_iff cfg).mpr hcat)
  refine ⟨s, hs, ?_, ?_, ?_, ?_⟩ <;> intro h <;> apply hcov <;> rw [mem_categories] <;>
    simp [h]

/-- Witness of C2: length 6, digits and symbols only, ambiguous characters kept. -/
theorem generatePassword_covers_witness :
    ∃ s : JsString,
      generatePassword { length := 6, upper := false, lower := false, excludeAmb := false }
        (fun n => 7919 * n + 13) = .ok s ∧
      (false = true → ∃ c ∈ s, c ∈ upp false) ∧
      (false = true → ∃ c ∈ s, c ∈ low false) ∧
      (true = true → ∃ c ∈ s, c ∈ dig false) ∧
      (true = true → ∃ c ∈ s, c ∈ sym false) :=
  generatePassword_covers { length := 6, upper := false, lower := false, excludeAmb := false }
    (fun n => 7919 * n + 13) (by decide) (Or.inr (Or.inr (Or.inl rfl)))

/-- C3: for every valid config with `excludeAmb = true` and every random source,
the returned password holds none of the ten ambiguous characters. -/
theorem generatePassword_no_ambiguous (cfg : Config) (rng : Nat → Nat)
    (hlen : 4 ≤ cfg.length)
    (hcat : cfg.upper = true ∨ cfg.lower = true ∨ cfg.digits = true ∨ cfg.symbols = true)
    (hamb : cfg.excludeAmb = true) :
    ∃ s : JsString, generatePassword cfg rng = .ok s ∧ ∀ c ∈ s, c ∉ AMBIGUOUS := by
  obtain ⟨s, hs, _, _, hmem⟩ :=
    generatePassword_members cfg rng hlen ((categories_ne_nil_iff cfg).mpr hcat)
  exact ⟨s, hs, fun c hc => not_ambiguous_of_mem_categories cfg hamb c (hmem c hc)⟩

/-- Witness of C3: length 12, uppercase and digits only, `excludeAmb` set. -/
theorem generatePassword_no_ambiguous_witness :
    ∃ s : JsString,
      generatePassword { length := 12, lower := false, symbols := false }
        (fun n => 31 * n + 5) = .ok s ∧ ∀ c ∈ s, c ∉ AMBIGUOUS :=
  generatePassword_no_ambiguous { length := 12, lower := false, symbols := false }
    (fun n => 31 * n + 5) (by decide) (Or.inl rfl) rfl

/-- C4: for every integer length and every choice of the flags,
`generatePassword` throws exactly when `length < 4`, or no category is enabled,
or `length` is below the number of enabled categories, and returns a password in
every other case; with length 4 and all four categories it returns. -/
theorem generatePassword_error_iff (cfg : Config) (rng : Nat → Nat) :
    ((∃ msg, generatePassword cfg rng = .error msg) ↔
      (cfg.length < 4 ∨
        (cfg.upper = false ∧ cfg.lower = false ∧ cfg.digits = false ∧ cfg.symbols = false) ∨
        cfg.length < enabledCount cfg)) ∧
    ((∃ s, generatePassword cfg rng = .ok s) ↔
      ¬ (cfg.length < 4 ∨
        (cfg.upper = false ∧ cfg.lower = false ∧ cfg.digits = false ∧ cfg.symbols = false) ∨
        cfg.length < enabledCount cfg)) ∧
    (∀ e : Bool, ∃ s, generatePassword
      { length := 4, upper := true, lower := true, digits := true, symbols := true,
        excludeAmb := e } rng = .ok s) := by
  have hgood : ∀ c : Config, 4 ≤ c.length →
      (c.upper = true ∨ c.lower = true ∨ c.digits = true ∨ c.symbols = true) →
      ∃ s, generatePassword c rng = .ok s := by
    intro c h4 hc
    obtain ⟨s, hs, _⟩ :=
      generatePassword_members c rng h4 ((categories_ne_nil_iff c).mpr hc)
    exact ⟨s, hs⟩
  have hbad : (cfg.length < 4 ∨
        (cfg.upper = false ∧ cfg.lower = false ∧ cfg.digits = false ∧ cfg.symbols = false) ∨
        cfg.length < enabledCount cfg) → ∃ msg, generatePassword cfg rng = .error msg := by
    intro h
    have hle := categories_length_le cfg
    have hcount : enabledCount cfg = (categories cfg).length := (categories_length cfg).symm
    have hnil : (cfg.upper = false ∧ cfg.lower = false ∧ cfg.digits = false ∧
        cfg.symbols = false) → (categories cfg).length = 0 := by
      rintro ⟨h1, h2, h3, h4⟩
      simp [categories, h1, h2, h3, h4]
    simp only [generatePassword]
    split_ifs with h1 h2 h3
    · exact ⟨_, rfl⟩
    · exact ⟨_, rfl⟩
    · exact ⟨_, rfl⟩
    · exfalso
      rcases h with h | h | h
      · exact h1 h
      · exact h2 (hnil h)
      · rw [hcount] at h; exact h3 h
  have hsplit : ¬ (cfg.length < 4 ∨
        (cfg.upper = false ∧ cfg.lower = false ∧ cfg.digits = false ∧ cfg.symbols = false) ∨
        cfg.length < enabledCount cfg) → ∃ s, generatePassword cfg rng = .ok s := by
    intro h
    push_neg at h
    obtain ⟨h4, hc, _⟩ := h
    apply hgood cfg (by omega)
    cases hu : cfg.upper <;> cases hl : cfg.lower <;> cases hd : cfg.digits <;>
      cases hs : cfg.symbols <;> simp_all
  refine ⟨⟨?_, hbad⟩, ⟨?_, hsplit⟩, ?_⟩
  · rintro ⟨msg, hmsg⟩
    by_contra hcon
    obtain ⟨s, hs⟩ := hsplit hcon
    rw [hs] at hmsg
    cases hmsg
  · rintro ⟨s, hs⟩ hcon
    obtain ⟨msg, hmsg⟩ := hbad hcon
    rw [hs] at hmsg
    cases hmsg
  · intro e
    exact hgood _ (le_refl (4 : Int)) (Or.inl rfl)

/-- Witness of C4: length 2 with all four categories is rejected. -/
theorem generatePassword_error_iff_witness :
    ∃ msg, generatePassword { length := 2 } (fun n => 7919 * n + 13) = .error msg :=
  (generatePassword_error_iff { length := 2 } (fun n => 7919 * n + 13)).1.mpr
    (Or.inl (by decide))

/-! ## Lemmas on the estimator -/

/-- The four length tests add up to the number of thresholds reached. -/
theorem lengthPoints_eq (n : Nat) :
    ((if n ≥ 24 then
        (if n ≥ 16 then (if n ≥ 12 then (if n ≥ 8 then (0 : Int) + 1 else 0) + 1
          else (if n ≥ 8 then (0 : Int) + 1 else 0)) + 1
         else (if n ≥ 12 then (if n ≥ 8 then (0 : Int) + 1 else 0) + 1
          else (if n ≥ 8 then (0 : Int) + 1 else 0))) + 1
      else
        (if n ≥ 16 then (if n ≥ 12 then (if n ≥ 8 then (0 : Int) + 1 else 0) + 1
          else (if n ≥ 8 then (0 : Int) + 1 else 0)) + 1
         else (if n ≥ 12 then (if n ≥ 8 then (0 : Int) + 1 else 0) + 1
          else (if n ≥ 8 then (0 : Int) + 1 else 0)))) : Int) =
      ((([8, 12, 16, 24] : List Nat).filter (fun t => t ≤ n)).length : Int) := by
  by_cases h8 : 8 ≤ n <;> by_cases h12 : 12 ≤ n <;> by_cases h16 : 16 ≤ n <;>
    by_cases h24 : 24 ≤ n <;> first | omega | simp [List.filter, h8, h12, h16, h24]

/-- The score of a non-empty password: length points plus the number of
successful class tests, zeroed by the whole-repeat test, lowered by the
triple-run test, then clamped. -/
theorem estimateStrength_score (pwd : JsString) (h : pwd ≠ []) :
    (estimateStrength pwd).score =
      max 0 (min ((if testTripleRun pwd then
          (if testWholeRepeat pwd then 0
            else lengthPoints pwd + countTrue [pwd.any isUpperAZ, pwd.any isLowerAZ,
              pwd.any isDigit09, pwd.any isNotAlnum]) - 1
        else
          (if testWholeRepeat pwd then 0
            else lengthPoints pwd + countTrue [pwd.any isUpperAZ, pwd.any isLowerAZ,
              pwd.any isDigit09, pwd.any isNotAlnum]))) 10) := by
  have hne : pwd.isEmpty = false := by
    cases pwd with
    | nil => exact absurd rfl h
    | cons a as => rfl
  simp only [estimateStrength, hne, Bool.false_eq_true, if_false, lengthPoints_eq]
  rfl

/-- The label of a non-empty password is the label of its score. -/
theorem estimateStrength_label (pwd : JsString) (h : pwd ≠ []) :
    (estimateStrength pwd).label = labelOfScore (estimateStrength pwd).score := by
  have hne : pwd.isEmpty = false := by
    cases pwd with
    | nil => exact absurd rfl h
    | cons a as => rfl
  simp only [estimateStrength, hne, Bool.false_eq_true, if_false, labelOfScore]

/-- The number of successful class tests is the number of types present. -/
theorem countTrue_eq_typePoints (pwd : JsString) :
    countTrue [pwd.any isUpperAZ, pwd.any isLowerAZ, pwd.any isDigit09, pwd.any isNotAlnum]
      = typePoints pwd := by
  have hU : (pwd.any isUpperAZ = true) ↔ ∃ u ∈ pwd, 65 ≤ u ∧ u ≤ 90 := by
    simp [List.any_eq_true, isUpperAZ]
  have hL : (pwd.any isLowerAZ = true) ↔ ∃ u ∈ pwd, 97 ≤ u ∧ u ≤ 122 := by
    simp [List.any_eq_true, isLowerAZ]
  have hD : (pwd.any isDigit09 = true) ↔ ∃ u ∈ pwd, 48 ≤ u ∧ u ≤ 57 := by
    simp [List.any_eq_true, isDigit09]
  have hS : (pwd.any isNotAlnum = true) ↔ ∃ u ∈ pwd,
      ¬ (65 ≤ u ∧ u ≤ 90) ∧ ¬ (97 ≤ u ∧ u ≤ 122) ∧ ¬ (48 ≤ u ∧ u ≤ 57) := by
    simp only [List.any_eq_true, isNotAlnum, isUpperAZ, isLowerAZ, isDigit09, Bool.not_eq_true',
      Bool.or_eq_false_iff, Bool.and_eq_false_iff, decide_eq_false_iff_not, Bool.not_eq_true,
      Bool.and_eq_true, decide_eq_true_eq, Bool.or_eq_true, not_or, Bool.not_eq_eq_eq_not,
      Bool.not_true]
    constructor <;> rintro ⟨u, hu, h⟩ <;> exact ⟨u, hu, by omega⟩
  have e1 : (if ∃ u ∈ pwd, 65 ≤ u ∧ u ≤ 90 then (1 : Int) else 0) =
      if pwd.any isUpperAZ = true then 1 else 0 := if_congr hU.symm rfl rfl
  have e2 : (if ∃ u ∈ pwd, 97 ≤ u ∧ u ≤ 122 then (1 : Int) else 0) =
      if pwd.any isLowerAZ = true then 1 else 0 := if_congr hL.symm rfl rfl
  have e3 : (if ∃ u ∈ pwd, 48 ≤ u ∧ u ≤ 57 then (1 : Int) else 0) =
      if pwd.any isDigit09 = true then 1 else 0 := if_congr hD.symm rfl rfl
  have e4 : (if ∃ u ∈ pwd, ¬ (65 ≤ u ∧ u ≤ 90) ∧ ¬ (97 ≤ u ∧ u ≤ 122) ∧ ¬ (48 ≤ u ∧ u ≤ 57)
      then (1 : Int) else 0) = if pwd.any isNotAlnum = true then 1 else 0 :=
    if_congr hS.symm rfl rfl
  unfold typePoints
  rw [e1, e2, e3, e4]
  cases pwd.any isUpperAZ <;> cases pwd.any isLowerAZ <;> cases pwd.any isDigit09 <;>
    cases pwd.any isNotAlnum <;> rfl

/-- Every code unit belongs to one of the four types: a non-empty password
earns at least one type point. -/
theorem typePoints_pos (pwd : JsString) (h : pwd ≠ []) : 1 ≤ typePoints pwd := by
  obtain ⟨u, hu⟩ := List.exists_mem_of_ne_nil _ h
  unfold typePoints
  by_cases h1 : 65 ≤ u ∧ u ≤ 90
  · have : ∃ u ∈ pwd, 65 ≤ u ∧ u ≤ 90 := ⟨u, hu, h1⟩
    rw [if_pos this]; split_ifs <;> omega
  by_cases h2 : 97 ≤ u ∧ u ≤ 122
  · have : ∃ u ∈ pwd, 97 ≤ u ∧ u ≤ 122 := ⟨u, hu, h2⟩
    rw [if_pos this]; split_ifs <;> omega
  by_cases h3 : 48 ≤ u ∧ u ≤ 57
  · have : ∃ u ∈ pwd, 48 ≤ u ∧ u ≤ 57 := ⟨u, hu, h3⟩
    rw [if_pos this]; split_ifs <;> omega
  · have : ∃ u ∈ pwd, ¬ (65 ≤ u ∧ u ≤ 90) ∧ ¬ (97 ≤ u ∧ u ≤ 122) ∧ ¬ (48 ≤ u ∧ u ≤ 57) :=
      ⟨u, hu, h1, h2, h3⟩
    rw [if_pos this]; split_ifs <;> omega

/-- Length points lie between 0 and 4. -/
theorem lengthPoints_bounds (pwd : JsString) : 0 ≤ lengthPoints pwd ∧ lengthPoints pwd ≤ 4 := by
  unfold lengthPoints
  refine ⟨Int.natCast_nonneg _, ?_⟩
  have := List.length_filter_le (fun t => decide (t ≤ pwd.length)) ([8, 12, 16, 24] : List Nat)
  simp only [List.length_cons, List.length_nil] at this
  omega

/-- Type points lie between 0 and 4. -/
theorem typePoints_bounds (pwd : JsString) : 0 ≤ typePoints pwd ∧ typePoints pwd ≤ 4 := by
  unfold typePoints
  constructor <;> split_ifs <;> omega

/-- The whole-repeat test succeeds exactly on two or more copies of one unit
that is no line terminator. -/
theorem testWholeRepeat_iff (pwd : JsString) :
    testWholeRepeat pwd = true ↔
      2 ≤ pwd.length ∧ ∃ c, isLineTerminator c = false ∧ pwd = List.replicate pwd.length c := by
  match pwd with
  | [] => simp [testWholeRepeat]
  | [a] => simp [testWholeRepeat]
  | a :: b :: rest =>
    simp only [testWholeRepeat, Bool.and_eq_true, Bool.not_eq_true', List.all_eq_true,
      beq_iff_eq, List.length_cons]
    constructor
    · rintro ⟨hlt, hall⟩
      refine ⟨by omega, a, hlt, ?_⟩
      rw [List.eq_replicate_iff]
      refine ⟨by simp, ?_⟩
      intro x hx
      rcases List.mem_cons.mp hx with rfl | hx
      · rfl
      · exact hall x hx
    · rintro ⟨_, c, hlt, heq⟩
      have hmem : ∀ x ∈ a :: b :: rest, x = c := by
        intro x hx
        rw [heq] at hx
        exact List.eq_of_mem_replicate hx
      have ha : a = c := hmem a (List.mem_cons_self _ _)
      subst ha
      exact ⟨hlt, fun x hx => hmem x (List.mem_cons_of_mem _ hx)⟩

/-- The triple-run test succeeds exactly when some unit that is no line
terminator occurs three times in a row. -/
theorem testTripleRun_iff (pwd : JsString) :
    testTripleRun pwd = true ↔ HasVisibleRunOfThree pwd := by
  unfold HasVisibleRunOfThree
  induction pwd with
  | nil => simp [testTripleRun]
  | cons a t ih =>
    match t, ih with
    | [], _ =>
      simp only [testTripleRun, Bool.false_eq_true, false_iff, not_exists, not_and]
      intro c _ _ hinf
      have := hinf.length_le
      simp at this
    | [b], _ =>
      simp only [testTripleRun, Bool.false_eq_true, false_iff, not_exists, not_and]
      intro c _ _ hinf
      have := hinf.length_le
      simp at this
    | b :: c :: rest, ih =>
      simp only [testTripleRun, Bool.or_eq_true, Bool.and_eq_true, Bool.not_eq_true',
        beq_iff_eq, ih]
      constructor
      · rintro (⟨⟨hlt, hb⟩, hc⟩ | ⟨x, hx, hlt, hinf⟩)
        · subst hb; subst hc
          exact ⟨_, List.mem_cons_self _ _, hlt,
            (List.prefix_iff_eq_append.mpr (by simp)).isInfix⟩
        · exact ⟨x, List.mem_cons_of_mem _ hx, hlt, List.infix_cons hinf⟩
      · rintro ⟨x, _, hlt, hinf⟩
        rcases List.infix_cons_iff.mp hinf with hpre | hinf
        · left
          obtain ⟨r, hr⟩ := hpre
          simp only [List.cons_append, List.cons.injEq, List.nil_append] at hr
          obtain ⟨h1, h2, h3, _⟩ := hr
          subst h1; subst h2; subst h3
          exact ⟨⟨hlt, rfl⟩, rfl⟩
        · right
          have hx : x ∈ b :: c :: rest := hinf.subset (List.mem_cons_self _ _)
          exact ⟨x, hx, hlt, hinf⟩

/-- The clamp of the code is the clamp to `[0, 10]`. -/
theorem max_min_eq_clampScore (x : Int) : max 0 (min x 10) = clampScore x := by
  unfold clampScore
  simp only [max_def, min_def]
  split_ifs <;> omega

/-! ## Claims on the estimator -/

/-- C5, as stated, fails: on the four-unit password made of the letter a and
three line feeds, neither empty nor a single repeated character, the code scores
2 (no length point, two types, no penalty) where the stated formula, which
counts the run of three line feeds, gives 1. -/
theorem estimateStrength_run_of_line_feeds :
    js "a\n\n\n" = [97, 10, 10, 10] ∧
    js "a\n\n\n" ≠ [] ∧ ¬ IsSingleRepeated (js "a\n\n\n") ∧
    (estimateStrength (js "a\n\n\n")).score = 2 ∧
    clampScore (lengthPoints (js "a\n\n\n") + typePoints (js "a\n\n\n")
      - (if HasRunOfThree (js "a\n\n\n") then 1 else 0)) = 1 := by
  decide

/-- C5, amended: for every non-empty password that is not one single character
repeated for its whole length, the score is the clamp to `[0, 10]` of `L + D - P`,
with `L` the number of thresholds among 8, 12, 16, 24 reached by the length, `D`
the number of character types present, and `P` equal to 1 when the password
contains a run of 3 or more identical consecutive characters other than line
terminators and 0 otherwise; the sixteen-unit example scores 3 + 4 = 7. -/
theorem estimateStrength_score_formula (pwd : JsString) (hne : pwd ≠ [])
    (hrep : ¬ IsSingleRepeated pwd) :
    (estimateStrength pwd).score =
        clampScore (lengthPoints pwd + typePoints pwd
          - (if HasVisibleRunOfThree pwd then 1 else 0)) ∧
      (lengthPoints (js "Ab3!Ab3!Ab3!Ab3!") = 3 ∧ typePoints (js "Ab3!Ab3!Ab3!Ab3!") = 4 ∧
        (estimateStrength (js "Ab3!Ab3!Ab3!Ab3!")).score = 7) := by
  refine ⟨?_, by decide⟩
  have hwhole : testWholeRepeat pwd = false := by
    cases hw : testWholeRepeat pwd with
    | false => rfl
    | true =>
      exfalso
      obtain ⟨_, c, _, hc⟩ := (testWholeRepeat_iff pwd).mp hw
      obtain ⟨u, hu⟩ := List.exists_mem_of_ne_nil _ hne
      have huc : u = c := by
        rw [hc] at hu
        exact List.eq_of_mem_replicate hu
      exact hrep ⟨c, huc ▸ hu, hc⟩
  rw [estimateStrength_score pwd hne, hwhole, countTrue_eq_typePoints,
    max_min_eq_clampScore]
  by_cases hrun : HasVisibleRunOfThree pwd
  · rw [(testTripleRun_iff pwd).mpr hrun]
    simp [hrun]
  · have : testTripleRun pwd = false := by
      cases ht : testTripleRun pwd with
      | false => rfl
      | true => exact absurd ((testTripleRun_iff pwd).mp ht) hrun
    rw [this]
    simp [hrun]

/-- Witness of C5: a twelve-unit password with a run of three. -/
theorem estimateStrength_score_formula_witness :
    (estimateStrength (js "Paaass12word")).score =
        clampScore (lengthPoints (js "Paaass12word") + typePoints (js "Paaass12word")
          - (if HasVisibleRunOfThree (js "Paaass12word") then 1 else 0)) ∧
      (lengthPoints (js "Ab3!Ab3!Ab3!Ab3!") = 3 ∧ typePoints (js "Ab3!Ab3!Ab3!Ab3!") = 4 ∧
        (estimateStrength (js "Ab3!Ab3!Ab3!Ab3!")).score = 7) :=
  estimateStrength_score_formula (js "Paaass12word") (by decide) (by decide)

/-- C6, as stated, fails: a one-character password is a single character
repeated for its whole length and scores 1, and two line feeds score 1 too. -/
theorem estimateStrength_single_char_nonzero :
    (1 ≤ (js "a").length ∧ IsSingleRepeated (js "a") ∧
      (estimateStrength (js "a")).score = 1) ∧
    (1 ≤ (js "\n\n").length ∧ IsSingleRepeated (js "\n\n") ∧
      (estimateStrength (js "\n\n")).score = 1) := by
  decide

/-- C6, amended: for every password of length at least 2 that consists of one
single character, other than a line terminator, repeated for its whole length,
the score is 0 whatever its length and type points; eight copies of the letter a
score 0. -/
theorem estimateStrength_repeated_zero (pwd : JsString) (hlen : 2 ≤ pwd.length)
    (hrep : IsSingleRepeated pwd) (hvis : ∀ c ∈ pwd, isLineTerminator c = false) :
    (estimateStrength pwd).score = 0 ∧ (estimateStrength (js "aaaaaaaa")).score = 0 := by
  refine ⟨?_, by decide⟩
  have hne : pwd ≠ [] := by
    intro h; rw [h] at hlen; simp at hlen
  obtain ⟨c, hc, heq⟩ := hrep
  have hwhole : testWholeRepeat pwd = true :=
    (testWholeRepeat_iff pwd).mpr ⟨hlen, c, hvis c hc, heq⟩
  rw [estimateStrength_score pwd hne, hwhole, max_min_eq_clampScore]
  cases testTripleRun pwd <;> simp [clampScore]

/-- Witness of C6: two copies of the digit 7. -/
theorem estimateStrength_repeated_zero_witness :
    (estimateStrength (js "77")).score = 0 ∧ (estimateStrength (js "aaaaaaaa")).score = 0 :=
  estimateStrength_repeated_zero (js "77") (by decide) (by decide) (by decide)

/-- C7, as stated, fails: the labels of the code are not the English ones; eight
copies of the letter a are labelled "Faible", not "Weak", and the sixteen-unit
example is labelled "Fort", not "Strong". -/
theorem estimateStrength_label_not_english :
    estimateStrength (js "aaaaaaaa") = { score := 0, label := "Faible" } ∧
    estimateStrength (js "aaaaaaaa") ≠ { score := 0, label := "Weak" } ∧
    (estimateStrength (js "Ab3!Ab3!Ab3!Ab3!")).label = "Fort" ∧
    (estimateStrength (js "Ab3!Ab3!Ab3!Ab3!")).label ≠ "Strong" := by
  decide

/-- C7, amended: for every non-empty password the label is a function of the
returned score, thresholds evaluated from the highest down: "Très fort" when the
score is at least 9, otherwise "Fort" when at least 7, otherwise "Moyen" when at
least 4, otherwise "Faible"; the two examples are (0, "Faible") and "Fort". -/
theorem estimateStrength_label_of_score (pwd : JsString) (hne : pwd ≠ []) :
    (estimateStrength pwd).label =
        (if (estimateStrength pwd).score ≥ 9 then "Très fort"
         else if (estimateStrength pwd).score ≥ 7 then "Fort"
         else if (estimateStrength pwd).score ≥ 4 then "Moyen"
         else "Faible") ∧
      estimateStrength (js "aaaaaaaa") = { score := 0, label := "Faible" } ∧
      (estimateStrength (js "Ab3!Ab3!Ab3!Ab3!")).label = "Fort" :=
  ⟨estimateStrength_label pwd hne, by decide, by decide⟩

/-- Witness of C7: a password of score 5, labelled "Moyen". -/
theorem estimateStrength_label_of_score_witness :
    (estimateStrength (js "Paaass12word")).label =
        (if (estimateStrength (js "Paaass12word")).score ≥ 9 then "Très fort"
         else if (estimateStrength (js "Paaass12word")).score ≥ 7 then "Fort"
         else if (estimateStrength (js "Paaass12word")).score ≥ 4 then "Moyen"
         else "Faible") ∧
      estimateStrength (js "aaaaaaaa") = { score := 0, label := "Faible" } ∧
      (estimateStrength (js "Ab3!Ab3!Ab3!Ab3!")).label = "Fort" :=
  estimateStrength_label_of_score (js "Paaass12word") (by decide)

/-- C8: on the empty string `estimateStrength` returns exactly score 0 and the
label "—"; no non-empty password gets that label; and the function returns a
result on every string. -/
theorem estimateStrength_empty :
    estimateStrength (js "") = { score := 0, label := "—" } ∧
    (∀ pwd : JsString, pwd ≠ [] → (estimateStrength pwd).label ≠ "—") ∧
    (∀ pwd : JsString, ∃ r : Strength, estimateStrength pwd = r) := by
  refine ⟨by decide, ?_, fun pwd => ⟨_, rfl⟩⟩
  intro pwd hne
  rw [estimateStrength_label pwd hne]
  unfold labelOfScore
  split_ifs <;> decide

/-- Witness of C8: the one-letter password is not labelled "—". -/
theorem estimateStrength_empty_witness : (estimateStrength (js "a")).label ≠ "—" :=
  estimateStrength_empty.2.1 (js "a") (by decide)

/-- C9, as stated, fails: the label of the one-letter password is none of the
five listed values. -/
theorem estimateStrength_label_not_listed :
    (estimateStrength (js "a")).label = "Faible" ∧
    (estimateStrength (js "a")).label ∉ ["Weak", "Medium", "Strong", "Very Strong", "—"] := by
  decide

/-- C9, amended: for every string the score is an integer in `[0, 10]`, never
negative (three copies of one letter: the penalty applied to 0 still gives 0),
and the label is one of "Faible", "Moyen", "Fort", "Très fort", "—". -/
theorem estimateStrength_range (pwd : JsString) :
    0 ≤ (estimateStrength pwd).score ∧ (estimateStrength pwd).score ≤ 10 ∧
    (estimateStrength pwd).label ∈ ["Faible", "Moyen", "Fort", "Très fort", "—"] ∧
    (testTripleRun (js "aaa") = true ∧ (estimateStrength (js "aaa")).score = 0) := by
  by_cases hne : pwd = []
  · subst hne
    decide
  · refine ⟨?_, ?_, ?_, by decide⟩
    · rw [estimateStrength_score pwd hne]
      exact le_max_left _ _
    · rw [estimateStrength_score pwd hne]
      exact max_le (by decide) (min_le_right _ _)
    · rw [estimateStrength_label pwd hne]
      unfold labelOfScore
      split_ifs <;> simp

/-! ## Claims on the history -/

/-- The list saved for a non-empty password: the password, then the first nine
of the other stored entries. -/
theorem pushToHistory_eq (pwd : JsString) (stored : List JsString) (h : pwd ≠ []) :
    pushToHistory pwd stored = pwd :: (stored.filter (fun x => x != pwd)).take 9 := by
  have hne : pwd.isEmpty = false := by
    cases pwd with
    | nil => exact absurd rfl h
    | cons a as => rfl
  simp only [pushToHistory, hne, Bool.false_eq_true, if_false, HISTORY_LIMIT]
  split_ifs with hlen
  · rfl
  · rw [List.take_of_length_le]
    simp only [List.length_cons] at hlen
    omega

/-- C10: for every stored list and every non-empty password `p`, the list saved
by `pushToHistory(p)` has at most 10 entries and has `p` at index 0, occurring
exactly once; if the stored list had no duplicates and at most 10 entries, so
has the saved list; and the list saved by clearing is empty, hence within the
invariant too. -/
theorem pushToHistory_invariant (stored : List JsString) (p : JsString) (hp : p ≠ []) :
    (pushToHistory p stored).length ≤ 10 ∧
    (pushToHistory p stored)[0]? = some p ∧
    (pushToHistory p stored).count p = 1 ∧
    (stored.Nodup ∧ stored.length ≤ 10 →
      (pushToHistory p stored).Nodup ∧ (pushToHistory p stored).length ≤ 10) ∧
    (clearHistory stored = [] ∧ (clearHistory stored).Nodup ∧
      (clearHistory stored).length ≤ 10) := by
  rw [pushToHistory_eq p stored hp]
  have hnot : p ∉ (stored.filter (fun x => x != p)).take 9 := by
    intro hmem
    have := (List.mem_filter.mp (List.mem_of_mem_take hmem)).2
    simp at this
  have hlen : (p :: (stored.filter (fun x => x != p)).take 9).length ≤ 10 := by
    simp only [List.length_cons, List.length_take]
    omega
  refine ⟨hlen, by simp, ?_, ?_, rfl, List.nodup_nil, Nat.zero_le _⟩
  · rw [List.count_cons_self, List.count_eq_zero_of_not_mem hnot]
  · rintro ⟨hnd, _⟩
    refine ⟨List.nodup_cons.mpr ⟨hnot, ?_⟩, hlen⟩
    exact ((hnd.sublist (List.filter_sublist _)).sublist (List.take_sublist _ _))

/-- Witness of C10: pushing an entry already stored in a list of three. -/
theorem pushToHistory_invariant_witness :
    (pushToHistory (js "b") [js "a", js "b", js "c"]).length ≤ 10 ∧
    (pushToHistory (js "b") [js "a", js "b", js "c"])[0]? = some (js "b") ∧
    (pushToHistory (js "b") [js "a", js "b", js "c"]).count (js "b") = 1 ∧
    ([js "a", js "b", js "c"].Nodup ∧ [js "a", js "b", js "c"].length ≤ 10 →
      (pushToHistory (js "b") [js "a", js "b", js "c"]).Nodup ∧
        (pushToHistory (js "b") [js "a", js "b", js "c"]).length ≤ 10) ∧
    (clearHistory [js "a", js "b", js "c"] = [] ∧
      (clearHistory [js "a", js "b", js "c"]).Nodup ∧
      (clearHistory [js "a", js "b", js "c"]).length ≤ 10) :=
  pushToHistory_invariant [js "a", js "b", js "c"] (js "b") (by decide)

/-- A stored list without the pushed password is kept by the filter. -/
theorem filter_ne_of_not_mem (p : JsString) (l : List JsString) (h : p ∉ l) :
    l.filter (fun x => x != p) = l := by
  rw [List.filter_eq_self]
  intro x hx
  have : x ≠ p := fun hxp => h (hxp ▸ hx)
  simpa using this

/-- Pushing twice in a row saves what pushing once saves, on every stored list. -/
theorem pushToHistory_idem (p : JsString) (stored : List JsString) (hp : p ≠ []) :
    pushToHistory p (pushToHistory p stored) = pushToHistory p stored := by
  have hnot : p ∉ (stored.filter (fun x => x != p)).take 9 := by
    intro hmem
    have := (List.mem_filter.mp (List.mem_of_mem_take hmem)).2
    simp at this
  rw [pushToHistory_eq p stored hp, pushToHistory_eq p _ hp]
  have hself : (p != p) = false := by simp
  rw [List.filter_cons, hself]
  simp only [Bool.false_eq_true, if_false]
  rw [filter_ne_of_not_mem p _ hnot, List.take_take]
  simp

/-- C11, as stated, fails: a duplicate-free stored list of eleven entries holds
the pushed password, yet the saved list has ten entries, not eleven, and the
entry that was last but one is gone. -/
theorem pushToHistory_eleven_entries :
    ([js "a", js "b", js "c", js "d", js "e", js "f", js "g", js "h", js "i", js "j",
        js "k"] : List JsString).Nodup ∧
    js "k" ≠ [] ∧
    js "k" ∈ ([js "a", js "b", js "c", js "d", js "e", js "f", js "g", js "h", js "i",
        js "j", js "k"] : List JsString) ∧
    ([js "a", js "b", js "c", js "d", js "e", js "f", js "g", js "h", js "i", js "j",
        js "k"] : List JsString).length = 11 ∧
    pushToHistory (js "k") [js "a", js "b", js "c", js "d", js "e", js "f", js "g", js "h",
        js "i", js "j", js "k"] =
      [js "k", js "a", js "b", js "c", js "d", js "e", js "f", js "g", js "h", js "i"] := by
  decide

/-- C11, amended: for every duplicate-free stored history of at most 10 entries
and every non-empty password `p` already in it, `pushToHistory(p)` saves a list
of the same length with `p` moved to the front and all other entries in their
previous relative order; pushing the same password twice in a row saves the same
list as pushing it once. -/
theorem pushToHistory_move_to_front (stored : List JsString) (p : JsString)
    (hp : p ≠ []) (hnd : stored.Nodup) (hlen : stored.length ≤ 10) (hmem : p ∈ stored) :
    (∃ before after : List JsString, stored = before ++ p :: after ∧
      pushToHistory p stored = p :: (before ++ after)) ∧
    (pushToHistory p stored).length = stored.length ∧
    pushToHistory p (pushToHistory p stored) = pushToHistory p stored := by
  obtain ⟨s, t, hst⟩ := List.append_of_mem hmem
  subst hst
  have hps : p ∉ s := fun h => by
    have := (List.nodup_append.mp hnd).2.2
    exact this h (List.mem_cons_self _ _)
  have hpt : p ∉ t := by
    have := (List.nodup_append.mp hnd).2.1
    exact (List.nodup_cons.mp this).1
  have hfil : (s ++ p :: t).filter (fun x => x != p) = s ++ t := by
    have hself : (p != p) = false := by simp
    rw [List.filter_append, List.filter_cons, hself]
    simp only [Bool.false_eq_true, if_false]
    rw [filter_ne_of_not_mem p s hps, filter_ne_of_not_mem p t hpt]
  have hsave : pushToHistory p (s ++ p :: t) = p :: (s ++ t) := by
    rw [pushToHistory_eq p _ hp, hfil, List.take_of_length_le]
    simp only [List.length_append, List.length_cons] at hlen ⊢
    omega
  refine ⟨⟨s, t, rfl, hsave⟩, ?_, pushToHistory_idem p _ hp⟩
  rw [hsave]
  simp only [List.length_append, List.length_cons]
  omega

/-- Witness of C11: the second of three entries is pushed again. -/
theorem pushToHistory_move_to_front_witness :
    (∃ before after : List JsString,
      [js "a", js "b", js "c"] = before ++ js "b" :: after ∧
      pushToHistory (js "b") [js "a", js "b", js "c"] = js "b" :: (before ++ after)) ∧
    (pushToHistory (js "b") [js "a", js "b", js "c"]).length =
      [js "a", js "b", js "c"].length ∧
    pushToHistory (js "b") (pushToHistory (js "b") [js "a", js "b", js "c"]) =
      pushToHistory (js "b") [js "a", js "b", js "c"] :=
  pushToHistory_move_to_front [js "a", js "b", js "c"] (js "b") (by decide) (by decide)
    (by decide) (by decide)

/-- C12: for every stored history of exactly 10 pairwise distinct entries and
every non-empty password `p` not in it, `pushToHistory(p)` saves exactly `p`
followed by the first 9 previous entries in their previous order; the one entry
left out is the last. -/
theorem pushToHistory_evicts_oldest (stored : List JsString) (p : JsString)
    (hp : p ≠ []) (_hnd : stored.Nodup) (hlen : stored.length = 10) (hmem : p ∉ stored) :
    pushToHistory p stored = p :: stored.take 9 ∧
    stored.take 9 = stored.dropLast ∧
    (∀ hne : stored ≠ [], stored = stored.take 9 ++ [stored.getLast hne]) := by
  have hdrop : stored.take 9 = stored.dropLast := by
    rw [List.dropLast_eq_take, hlen]
  refine ⟨?_, hdrop, ?_⟩
  · rw [pushToHistory_eq p stored hp, filter_ne_of_not_mem p stored hmem]
  · intro hne
    rw [hdrop]
    exact (List.dropLast_append_getLast hne).symm

/-- Witness of C12: ten one-letter entries and an eleventh password. -/
theorem pushToHistory_evicts_oldest_witness :
    pushToHistory (js "k") [js "a", js "b", js "c", js "d", js "e", js "f", js "g", js "h",
        js "i", js "j"] =
      js "k" :: ([js "a", js "b", js "c", js "d", js "e", js "f", js "g", js "h", js "i",
        js "j"] : List JsString).take 9 :=
  (pushToHistory_evicts_oldest [js "a", js "b", js "c", js "d", js "e", js "f", js "g",
    js "h", js "i", js "j"] (js "k") (by decide) (by decide) (by decide) (by decide)).1

/-! ## Further claims on the generator -/

/-- The four unfiltered classes lie in the four character types, so they are
pairwise disjoint. -/
theorem class_kinds :
    (∀ c ∈ upp false, isUpperAZ c = true) ∧ (∀ c ∈ low false, isLowerAZ c = true) ∧
    (∀ c ∈ dig false, isDigit09 c = true) ∧ (∀ c ∈ sym false, isNotAlnum c = true) := by
  decide

/-- A filtered class is part of the unfiltered one. -/
theorem class_subset (e : Bool) :
    (∀ c ∈ upp e, c ∈ upp false) ∧ (∀ c ∈ low e, c ∈ low false) ∧
    (∀ c ∈ dig e, c ∈ dig false) ∧ (∀ c ∈ sym e, c ∈ sym false) := by
  cases e <;> decide

/-- A unit of the combined alphabet is a unit of an enabled class. -/
theorem mem_alphabet (cfg : Config) (c : Nat) (hc : c ∈ (categories cfg).flatten) :
    (cfg.upper = true ∧ c ∈ upp cfg.excludeAmb) ∨ (cfg.lower = true ∧ c ∈ low cfg.excludeAmb) ∨
    (cfg.digits = true ∧ c ∈ dig cfg.excludeAmb) ∨
    (cfg.symbols = true ∧ c ∈ sym cfg.excludeAmb) := by
  obtain ⟨cat, hcat, hmem⟩ := List.mem_flatten.mp hc
  rcases (mem_categories cfg cat).mp hcat with ⟨h, rfl⟩ | ⟨h, rfl⟩ | ⟨h, rfl⟩ | ⟨h, rfl⟩
  · exact Or.inl ⟨h, hmem⟩
  · exact Or.inr (Or.inl ⟨h, hmem⟩)
  · exact Or.inr (Or.inr (Or.inl ⟨h, hmem⟩))
  · exact Or.inr (Or.inr (Or.inr ⟨h, hmem⟩))

/-- The type of a unit of the combined alphabet is the type of an enabled class. -/
theorem alphabet_kind (cfg : Config) (c : Nat) (hc : c ∈ (categories cfg).flatten) :
    (cfg.upper = true ∧ isUpperAZ c = true) ∨ (cfg.lower = true ∧ isLowerAZ c = true) ∨
    (cfg.digits = true ∧ isDigit09 c = true) ∨ (cfg.symbols = true ∧ isNotAlnum c = true) := by
  obtain ⟨ku, kl, kd, ks⟩ := class_kinds
  obtain ⟨su, sl, sd, ss⟩ := class_subset cfg.excludeAmb
  rcases mem_alphabet cfg c hc with ⟨h, hm⟩ | ⟨h, hm⟩ | ⟨h, hm⟩ | ⟨h, hm⟩
  · exact Or.inl ⟨h, ku c (su c hm)⟩
  · exact Or.inr (Or.inl ⟨h, kl c (sl c hm)⟩)
  · exact Or.inr (Or.inr (Or.inl ⟨h, kd c (sd c hm)⟩))
  · exact Or.inr (Or.inr (Or.inr ⟨h, ks c (ss c hm)⟩))

/-- The four character types exclude one another. -/
theorem kinds_exclusive (c : Nat) :
    (isUpperAZ c = true → isLowerAZ c = false ∧ isDigit09 c = false ∧ isNotAlnum c = false) ∧
    (isLowerAZ c = true → isUpperAZ c = false ∧ isDigit09 c = false ∧ isNotAlnum c = false) ∧
    (isDigit09 c = true → isUpperAZ c = false ∧ isLowerAZ c = false ∧ isNotAlnum c = false) ∧
    (isNotAlnum c = true → isUpperAZ c = false ∧ isLowerAZ c = false ∧ isDigit09 c = false) := by
  simp only [isNotAlnum, isUpperAZ, isLowerAZ, isDigit09, Bool.and_eq_true, decide_eq_true_eq,
    Bool.and_eq_false_iff, decide_eq_false_iff_not, Bool.not_eq_true', Bool.or_eq_false_iff,
    Bool.not_eq_false', Bool.or_eq_true]
  omega

/-- C16: for every valid config and every random source, every code unit of the
returned password belongs to the combined alphabet, the concatenation of the
enabled (and, with `excludeAmb`, filtered) classes; hence no character of a
disabled category appears, and with symbols disabled the password consists only
of ASCII letters and digits. -/
theorem generatePassword_in_alphabet (cfg : Config) (rng : Nat → Nat)
    (hlen : 4 ≤ cfg.length)
    (hcat : cfg.upper = true ∨ cfg.lower = true ∨ cfg.digits = true ∨ cfg.symbols = true) :
    ∃ s : JsString, generatePassword cfg rng = .ok s ∧
      (∀ c ∈ s, c ∈
        (if cfg.upper then upp cfg.excludeAmb else []) ++
        (if cfg.lower then low cfg.excludeAmb else []) ++
        (if cfg.digits then dig cfg.excludeAmb else []) ++
        (if cfg.symbols then sym cfg.excludeAmb else [])) ∧
      (cfg.upper = false → ∀ c ∈ s, c ∉ upp false) ∧
      (cfg.lower = false → ∀ c ∈ s, c ∉ low false) ∧
      (cfg.digits = false → ∀ c ∈ s, c ∉ dig false) ∧
      (cfg.symbols = false → ∀ c ∈ s, c ∉ sym false ∧
        (isUpperAZ c = true ∨ isLowerAZ c = true ∨ isDigit09 c = true)) := by
  obtain ⟨s, hs, _, _, hmem⟩ :=
    generatePassword_members cfg rng hlen ((categories_ne_nil_iff cfg).mpr hcat)
  obtain ⟨ku, kl, kd, ks⟩ := class_kinds
  have halpha : (categories cfg).flatten =
      (if cfg.upper then upp cfg.excludeAmb else []) ++
      (if cfg.lower then low cfg.excludeAmb else []) ++
      (if cfg.digits then dig cfg.excludeAmb else []) ++
      (if cfg.symbols then sym cfg.excludeAmb else []) := by
    unfold categories
    cases cfg.upper <;> cases cfg.lower <;> cases cfg.digits <;> cases cfg.symbols <;> simp
  refine ⟨s, hs, fun c hc => halpha ▸ hmem c hc, ?_, ?_, ?_, ?_⟩
  · intro hoff c hc hin
    have hk := ku c hin
    obtain ⟨ex, _, _, _⟩ := kinds_exclusive c
    obtain ⟨e1, e2, e3⟩ := ex hk
    rcases alphabet_kind cfg c (hmem c hc) with ⟨h, _⟩ | ⟨_, h⟩ | ⟨_, h⟩ | ⟨_, h⟩ <;> simp_all
  · intro hoff c hc hin
    have hk := kl c hin
    obtain ⟨_, ex, _, _⟩ := kinds_exclusive c
    obtain ⟨e1, e2, e3⟩ := ex hk
    rcases alphabet_kind cfg c (hmem c hc) with ⟨_, h⟩ | ⟨h, _⟩ | ⟨_, h⟩ | ⟨_, h⟩ <;> simp_all
  · intro hoff c hc hin
    have hk := kd c hin
    obtain ⟨_, _, ex, _⟩ := kinds_exclusive c
    obtain ⟨e1, e2, e3⟩ := ex hk
    rcases alphabet_kind cfg c (hmem c hc) with ⟨_, h⟩ | ⟨_, h⟩ | ⟨h, _⟩ | ⟨_, h⟩ <;> simp_all
  · intro hoff c hc
    have hkind := alphabet_kind cfg c (hmem c hc)
    constructor
    · intro hin
      have hk := ks c hin
      obtain ⟨_, _, _, ex⟩ := kinds_exclusive c
      obtain ⟨e1, e2, e3⟩ := ex hk
      rcases hkind with ⟨_, h⟩ | ⟨_, h⟩ | ⟨_, h⟩ | ⟨h, _⟩ <;> simp_all
    · rcases hkind with ⟨_, h⟩ | ⟨_, h⟩ | ⟨_, h⟩ | ⟨h, _⟩
      · exact Or.inl h
      · exact Or.inr (Or.inl h)
      · exact Or.inr (Or.inr h)
      · rw [hoff] at h; cases h

/-- Witness of C16: length 8 with symbols disabled. -/
theorem generatePassword_in_alphabet_witness :
    ∃ s : JsString,
      generatePassword { length := 8, symbols := false } (fun n => 7919 * n + 13) = .ok s ∧
      (∀ c ∈ s, c ∈ upp true ++ low true ++ dig true ++ []) ∧
      (true = false → ∀ c ∈ s, c ∉ upp false) ∧
      (true = false → ∀ c ∈ s, c ∉ low false) ∧
      (true = false → ∀ c ∈ s, c ∉ dig false) ∧
      (false = false → ∀ c ∈ s, c ∉ sym false ∧
        (isUpperAZ c = true ∨ isLowerAZ c = true ∨ isDigit09 c = true)) :=
  generatePassword_in_alphabet { length := 8, symbols := false } (fun n => 7919 * n + 13)
    (by decide) (Or.inl rfl)

/-- C17: for every config that passes the validation of `generatePassword` and
every 32-bit word, each of the three call sites draws safely: `choice(cat)` on a
pushed category and `choice(alphabet)` on the combined alphabet are made on a
non-empty string, with an index `randInt(str.length)` inside `[0, str.length)`
and a defined result; `randInt(i + 1)` in `shuffle` has `max ≥ 1` and gives
`j ≤ i`; so the returned password has all its `length` cells defined. Every class
stays non-empty after `removeAmbiguous`: 24, 25, 8 and 24 characters. -/
theorem generatePassword_draws_safe (cfg : Config) (hlen : 4 ≤ cfg.length)
    (hcat : cfg.upper = true ∨ cfg.lower = true ∨ cfg.digits = true ∨ cfg.symbols = true) :
    (∀ cat ∈ categories cfg, ∀ w : Nat, 1 ≤ cat.length ∧
      ∃ k c, randInt cat.length w = some k ∧ k < cat.length ∧ cat[k]? = some c ∧
        choice cat w = some c) ∧
    (∀ w : Nat, 1 ≤ (categories cfg).flatten.length ∧
      ∃ k c, randInt (categories cfg).flatten.length w = some k ∧
        k < (categories cfg).flatten.length ∧ (categories cfg).flatten[k]? = some c ∧
        choice (categories cfg).flatten w = some c) ∧
    (∀ i w : Nat, 1 ≤ i + 1 ∧ ∃ j, randInt (i + 1) w = some j ∧ j ≤ i) ∧
    (∀ rng : Nat → Nat, ∃ s : JsString, generatePassword cfg rng = .ok s ∧
      (s.length : Int) = cfg.length) ∧
    ((upp true).length = 24 ∧ (low true).length = 25 ∧ (dig true).length = 8 ∧
      (sym true).length = 24) := by
  have hne : categories cfg ≠ [] := (categories_ne_nil_iff cfg).mpr hcat
  have site : ∀ str : JsString, str ≠ [] → ∀ w : Nat, 1 ≤ str.length ∧
      ∃ k c, randInt str.length w = some k ∧ k < str.length ∧ str[k]? = some c ∧
        choice str w = some c := by
    intro str hstr w
    have hpos : 0 < str.length := List.length_pos.mpr hstr
    obtain ⟨k, hk, hlt⟩ := randInt_pos str.length w hpos
    refine ⟨hpos, k, str.get ⟨k, hlt⟩, hk, hlt, ?_, ?_⟩
    · simp [List.getElem?_eq_getElem hlt]
    · simp [choice, hk, List.getElem?_eq_getElem hlt]
  refine ⟨fun cat hmem w => site cat (categories_ne_nil cfg cat hmem) w, ?_, ?_, ?_, by decide⟩
  · intro w
    apply site
    obtain ⟨cat, hmem⟩ := List.exists_mem_of_ne_nil _ hne
    obtain ⟨c, hc⟩ := List.exists_mem_of_ne_nil _ (categories_ne_nil cfg cat hmem)
    exact List.ne_nil_of_mem (List.mem_flatten.mpr ⟨cat, hmem, hc⟩)
  · intro i w
    obtain ⟨j, hj, hlt⟩ := randInt_pos (i + 1) w (Nat.succ_pos _)
    exact ⟨Nat.succ_pos _, j, hj, by omega⟩
  · intro rng
    obtain ⟨s, hs, hl, _⟩ := generatePassword_members cfg rng hlen hne
    exact ⟨s, hs, hl⟩

/-- Witness of C17: the default config. -/
theorem generatePassword_draws_safe_witness :
    (upp true).length = 24 ∧ (low true).length = 25 ∧ (dig true).length = 8 ∧
      (sym true).length = 24 :=
  (generatePassword_draws_safe {} (by decide) (Or.inl rfl)).2.2.2.2

/-- The three messages are pairwise different, whatever the number in the third. -/
theorem tooSmallMessage_ne (n : Nat) :
    tooSmallMessage n ≠ "La longueur doit être au minimum 4." ∧
    tooSmallMessage n ≠ "Active au moins une catégorie." := by
  constructor <;>
  · intro h
    have hd := congrArg String.data h
    simp only [tooSmallMessage, String.data_append] at hd
    have h2 := congrArg (fun l => l[1]?) hd
    simp at h2

/-- C19: for every integer length and every choice of the flags, the third check
of `generatePassword` never fails: a length below the number of enabled
categories is below 4 and is rejected by the first check; `generatePassword`
throws if and only if `length < 4` or no category is enabled, always with one of
the first two messages, never with the "Longueur trop petite" one. -/
theorem generatePassword_third_check_dead (cfg : Config) (rng : Nat → Nat) :
    (cfg.length < ((categories cfg).length : Int) → cfg.length < 4) ∧
    ((∃ msg, generatePassword cfg rng = .error msg) ↔
      (cfg.length < 4 ∨
        (cfg.upper = false ∧ cfg.lower = false ∧ cfg.digits = false ∧ cfg.symbols = false))) ∧
    (∀ msg, generatePassword cfg rng = .error msg →
      (cfg.length < 4 ∧ msg = "La longueur doit être au minimum 4.") ∨
      (¬ cfg.length < 4 ∧ msg = "Active au moins une catégorie.")) ∧
    (∀ n : Nat, generatePassword cfg rng ≠ .error (tooSmallMessage n)) := by
  have hle := categories_length_le cfg
  have hdead : cfg.length < ((categories cfg).length : Int) → cfg.length < 4 := by
    intro h; omega
  have hmsg : ∀ msg, generatePassword cfg rng = .error msg →
      (cfg.length < 4 ∧ msg = "La longueur doit être au minimum 4.") ∨
      (¬ cfg.length < 4 ∧ msg = "Active au moins une catégorie.") := by
    intro msg h
    simp only [generatePassword] at h
    split_ifs at h with h1 h2 h3
    · left; exact ⟨h1, (Except.error.inj h).symm⟩
    · right; exact ⟨h1, (Except.error.inj h).symm⟩
    · exact absurd (hdead h3) h1
  have hnil : (categories cfg).length = 0 ↔
      (cfg.upper = false ∧ cfg.lower = false ∧ cfg.digits = false ∧ cfg.symbols = false) := by
    rw [categories_length]
    cases cfg.upper <;> cases cfg.lower <;> cases cfg.digits <;> cases cfg.symbols <;> decide
  refine ⟨hdead, ⟨?_, ?_⟩, hmsg, ?_⟩
  · rintro ⟨msg, h⟩
    simp only [generatePassword] at h
    split_ifs at h with h1 h2 h3
    · exact Or.inl h1
    · exact Or.inr (hnil.mp h2)
    · exact Or.inl (hdead h3)
  · intro h
    simp only [generatePassword]
    split_ifs with h1 h2 h3
    · exact ⟨_, rfl⟩
    · exact ⟨_, rfl⟩
    · exact ⟨_, rfl⟩
    · exfalso
      rcases h with h | h
      · exact h1 h
      · exact h2 (hnil.mpr h)
  · intro n h
    obtain ⟨h1, h2⟩ := tooSmallMessage_ne n
    rcases hmsg _ h with ⟨_, e⟩ | ⟨_, e⟩
    · exact h1 e
    · exact h2 e

/-- Witness of C19: length 2 with all four categories is below the number of
categories and below 4. -/
theorem generatePassword_third_check_dead_witness :
    (2 : Int) < ((categories { length := 2 }).length : Int) ∧ (2 : Int) < 4 :=
  ⟨by decide, (generatePassword_third_check_dead { length := 2 } (fun n => n)).1 (by decide)⟩

/-! ## Further claims on the estimator -/

/-- The score before the clamp: length points plus type points, zeroed by the
whole-repeat test, lowered by the triple-run test. -/
theorem scoreBeforeClamp_eq (pwd : JsString) :
    scoreBeforeClamp pwd =
      (if testTripleRun pwd then
          (if testWholeRepeat pwd then 0 else lengthPoints pwd + typePoints pwd) - 1
        else
          (if testWholeRepeat pwd then 0 else lengthPoints pwd + typePoints pwd)) := by
  simp only [scoreBeforeClamp, lengthPoints_eq, countTrue_eq_typePoints]
  rfl

/-- The returned score of a non-empty password is the clamp of the score before
the clamp. -/
theorem estimateStrength_score_clamp (pwd : JsString) (h : pwd ≠ []) :
    (estimateStrength pwd).score = max 0 (min (scoreBeforeClamp pwd) 10) := by
  rw [estimateStrength_score pwd h, scoreBeforeClamp_eq, countTrue_eq_typePoints]

/-- C18: for every string the score computed by `estimateStrength` is at most 8,
at most 4 length points plus at most 4 character-type points, so the upper bound
10 of the clamp is never active and the top label, which needs a score of at
least 9, is returned for no password; a password reaching all four thresholds
with all four types scores exactly 8. -/
theorem estimateStrength_score_le_eight (pwd : JsString) :
    (lengthPoints pwd ≤ 4 ∧ typePoints pwd ≤ 4) ∧
    scoreBeforeClamp pwd ≤ 8 ∧
    min (scoreBeforeClamp pwd) 10 = scoreBeforeClamp pwd ∧
    (estimateStrength pwd).score ≤ 8 ∧
    ¬ (estimateStrength pwd).score ≥ 9 ∧
    (estimateStrength pwd).label ≠ "Très fort" ∧
    (estimateStrength (js "Ab3!Ab3!Ab3!Ab3!Ab3!Ab3!")).score = 8 := by
  obtain ⟨hl0, hl4⟩ := lengthPoints_bounds pwd
  obtain ⟨ht0, ht4⟩ := typePoints_bounds pwd
  have hraw : scoreBeforeClamp pwd ≤ 8 := by
    rw [scoreBeforeClamp_eq]
    split_ifs <;> omega
  have hscore : (estimateStrength pwd).score ≤ 8 := by
    by_cases hne : pwd = []
    · subst hne; decide
    · rw [estimateStrength_score_clamp pwd hne]
      simp only [max_def, min_def]
      split_ifs <;> omega
  refine ⟨⟨hl4, ht4⟩, hraw, ?_, hscore, by omega, ?_, by decide⟩
  · exact min_eq_left (by omega)
  · by_cases hne : pwd = []
    · subst hne; decide
    · rw [estimateStrength_label pwd hne]
      unfold labelOfScore
      have h9 : ¬ (estimateStrength pwd).score ≥ 9 := by omega
      rw [if_neg h9]
      split_ifs <;> decide

/-! ## Claims on `shuffle` and `randInt` -/

/-- The cells of an array after the swap of `shuffle` at two indices inside it. -/
theorem swapAt_getElem? {α : Type} (arr : List (Option α)) (i a k : Nat)
    (hi : i < arr.length) (ha : a < arr.length) :
    (swapAt arr i (some a))[k]? =
      if k = a then arr[i]? else if k = i then arr[a]? else arr[k]? := by
  simp only [swapAt, readAt, writeAt, List.getElem?_eq_getElem hi, List.getElem?_eq_getElem ha,
    Option.join, Option.bind_some, id, List.getElem?_set, List.length_set]
  by_cases hka : k = a
  · subst hka
    simp [ha, List.getElem?_eq_getElem hi]
  · by_cases hki : k = i
    · subst hki
      simp [hka, hi, Ne.symm hka, List.getElem?_eq_getElem ha]
    · simp [hka, hki, Ne.symm hka, Ne.symm hki]

/-- After the swap of `shuffle`, cell `i` holds what cell `j` held. -/
theorem swapAt_getElem?_self {α : Type} (arr : List (Option α)) (i a : Nat)
    (hi : i < arr.length) (ha : a < arr.length) :
    (swapAt arr i (some a))[i]? = arr[a]? := by
  rw [swapAt_getElem? arr i a i hi ha]
  by_cases h : i = a
  · subst h; simp
  · simp [h]

/-- The loop of `shuffle` entered at `i` leaves the cells above `i` alone. -/
theorem shuffleLoop_frozen {α : Type} (rng : Nat → Nat) :
    ∀ (i pos : Nat) (arr : List (Option α)) (k : Nat), i < arr.length → i < k →
      (shuffleLoop rng i pos arr)[k]? = arr[k]?
  | 0, _, _, _, _, _ => rfl
  | i + 1, pos, arr, k, hi, hk => by
    obtain ⟨a, ha, hlt⟩ := randInt_pos (i + 1 + 1) (rng pos) (Nat.succ_pos _)
    have hal : a < arr.length := by omega
    have hlen : i < (swapAt arr (i + 1) (some a)).length := by
      rw [(swapAt_perm arr (i + 1) a hi hal).length_eq]; omega
    simp only [shuffleLoop, ha]
    rw [shuffleLoop_frozen rng i (pos + 1) _ k hlen (by omega),
      swapAt_getElem? arr (i + 1) a k hi hal]
    have h1 : k ≠ a := by omega
    have h2 : k ≠ i + 1 := by omega
    simp [h1, h2]

/-- The loop of `shuffle` reads the random source only from `pos` on. -/
theorem shuffleLoop_congr {α : Type} (rng rng' : Nat → Nat) :
    ∀ (i pos : Nat) (arr : List (Option α)),
      (∀ k, 1 ≤ k → k ≤ i → randInt (k + 1) (rng (pos + (i - k))) =
        randInt (k + 1) (rng' (pos + (i - k)))) →
      shuffleLoop rng i pos arr = shuffleLoop rng' i pos arr
  | 0, _, _, _ => rfl
  | i + 1, pos, arr, h => by
    have h0 := h (i + 1) (by omega) (le_refl _)
    simp only [Nat.sub_self, Nat.add_zero] at h0
    simp only [shuffleLoop, h0]
    apply shuffleLoop_congr rng rng' i (pos + 1)
    intro k hk1 hk2
    have := h k hk1 (by omega)
    have e : pos + (i + 1 - k) = pos + 1 + (i - k) := by omega
    rw [e] at this
    exact this

/-- A rearrangement of a duplicate-free array that agrees with it at every index
but one agrees with it there too. -/
theorem perm_agree_at {β : Type} (t arr : List β) (hp : t.Perm arr) (hnd : arr.Nodup)
    (m : Nat) (h : ∀ k, k ≠ m → t[k]? = arr[k]?) : t[m]? = arr[m]? := by
  have hlen := hp.length_eq
  have htnd : t.Nodup := hp.nodup_iff.mpr hnd
  by_cases hm : m < t.length
  · have hx : t[m]? = some (t.get ⟨m, hm⟩) := by simp [List.getElem?_eq_getElem hm]
    have hmem : t.get ⟨m, hm⟩ ∈ arr := hp.mem_iff.mp (List.get_mem _ _ _)
    obtain ⟨a, ha⟩ := List.mem_iff_getElem?.mp hmem
    by_cases ham : a = m
    · subst ham; rw [hx, ha]
    · have hta : t[a]? = t[m]? := by rw [h a ham, ha, hx]
      have hat : a < t.length := by
        rw [hlen]
        by_contra hcon
        rw [List.getElem?_eq_none (by omega)] at ha
        cases ha
      exact absurd (List.getElem?_inj hat htnd hta) ham
  · rw [List.getElem?_eq_none (by omega), List.getElem?_eq_none (by omega)]

/-- On a duplicate-free array the result of the loop of `shuffle` determines
every draw. -/
theorem shuffleLoop_inj {α : Type} (rng rng' : Nat → Nat) :
    ∀ (i pos pos' : Nat) (arr : List (Option α)), arr.Nodup → i < arr.length →
      shuffleLoop rng i pos arr = shuffleLoop rng' i pos' arr →
      ∀ k, 1 ≤ k → k ≤ i → randInt (k + 1) (rng (pos + (i - k))) =
        randInt (k + 1) (rng' (pos' + (i - k)))
  | 0, _, _, _, _, _, _ => fun k hk1 hk2 => by omega
  | i + 1, pos, pos', arr, hnd, hi, heq => by
    obtain ⟨a, ha, hlt⟩ := randInt_pos (i + 1 + 1) (rng pos) (Nat.succ_pos _)
    obtain ⟨b, hb, hlt'⟩ := randInt_pos (i + 1 + 1) (rng' pos') (Nat.succ_pos _)
    have hal : a < arr.length := by omega
    have hbl : b < arr.length := by omega
    have hpa := swapAt_perm arr (i + 1) a hi hal
    have hpb := swapAt_perm arr (i + 1) b hi hbl
    simp only [shuffleLoop, ha, hb] at heq
    have hcell := congrArg (fun l => l[i + 1]?) heq
    simp only at hcell
    rw [shuffleLoop_frozen rng i (pos + 1) _ (i + 1) (by rw [hpa.length_eq]; omega) (by omega),
      shuffleLoop_frozen rng' i (pos' + 1) _ (i + 1) (by rw [hpb.length_eq]; omega) (by omega),
      swapAt_getElem?_self arr (i + 1) a hi hal,
      swapAt_getElem?_self arr (i + 1) b hi hbl] at hcell
    have hab : a = b := List.getElem?_inj hal hnd hcell
    subst hab
    have ih := shuffleLoop_inj rng rng' i (pos + 1) (pos' + 1) _ (hpa.nodup_iff.mpr hnd)
      (by rw [hpa.length_eq]; omega) heq
    intro k hk1 hk2
    by_cases hk : k = i + 1
    · subst hk
      simp only [Nat.sub_self, Nat.add_zero]
      rw [ha, hb]
    · have := ih k hk1 (by omega)
      have e : pos + (i + 1 - k) = pos + 1 + (i - k) := by omega
      have e' : pos' + (i + 1 - k) = pos' + 1 + (i - k) := by omega
      rw [e, e']
      exact this

/-- On a duplicate-free array the loop of `shuffle` entered at `i` reaches every
rearrangement that agrees with the array above `i`. -/
theorem shuffleLoop_surj {α : Type} :
    ∀ (i pos : Nat) (arr t : List (Option α)), arr.Nodup → arr.length ≤ 2 ^ 32 →
      i < arr.length → t.Perm arr → (∀ k, i < k → t[k]? = arr[k]?) →
      ∃ rng : Nat → Nat, shuffleLoop rng i pos arr = t
  | 0, _, arr, t, hnd, _, _, hp, hag => by
    refine ⟨fun _ => 0, ?_⟩
    simp only [shuffleLoop]
    apply List.ext_getElem?
    intro k
    by_cases hk : k = 0
    · subst hk
      exact (perm_agree_at t arr hp hnd 0 (fun k hk => hag k (by omega))).symm
    · exact (hag k (by omega)).symm
  | i + 1, pos, arr, t, hnd, hlen, hi, hp, hag => by
    have htl : i + 1 < t.length := by rw [hp.length_eq]; exact hi
    have htnd : t.Nodup := hp.nodup_iff.mpr hnd
    have hx : t[i + 1]? = some (t.get ⟨i + 1, htl⟩) := by
      simp [List.getElem?_eq_getElem htl]
    have hmem : t.get ⟨i + 1, htl⟩ ∈ arr := hp.mem_iff.mp (List.get_mem _ _ _)
    obtain ⟨a, ha⟩ := List.mem_iff_getElem?.mp hmem
    have hal : a < arr.length := by
      by_contra hcon
      rw [List.getElem?_eq_none (by omega)] at ha
      cases ha
    have hai : a ≤ i + 1 := by
      by_contra hcon
      have hta : t[a]? = t[i + 1]? := by rw [hag a (by omega), ha, hx]
      have := List.getElem?_inj (by rw [hp.length_eq]; exact hal) htnd hta
      omega
    have hps := swapAt_perm arr (i + 1) a hi hal
    have hag' : ∀ k, i < k → t[k]? = (swapAt arr (i + 1) (some a))[k]? := by
      intro k hk
      rw [swapAt_getElem? arr (i + 1) a k hi hal]
      by_cases hk1 : k = i + 1
      · subst hk1
        by_cases hka : i + 1 = a
        · rw [if_pos hka, hx, ← ha, ← hka]
        · rw [if_neg hka, if_pos rfl, hx, ha]
      · have hka : k ≠ a := by omega
        rw [if_neg hka, if_neg hk1]
        exact hag k (by omega)
    obtain ⟨rng₁, hr⟩ := shuffleLoop_surj i (pos + 1) (swapAt arr (i + 1) (some a)) t
      (hps.nodup_iff.mpr hnd) (by rw [hps.length_eq]; exact hlen)
      (by rw [hps.length_eq]; omega) (hp.trans hps.symm) hag'
    refine ⟨fun p => if p = pos then a else rng₁ p, ?_⟩
    have hdraw : randInt (i + 1 + 1) a = some a := by
      have h1 : a % 2 ^ 32 = a := Nat.mod_eq_of_lt (by omega)
      have h2 : a % (i + 1 + 1) = a := Nat.mod_eq_of_lt (by omega)
      simp only [randInt]
      rw [if_neg (Nat.succ_ne_zero _), h1, h2]
    simp only [shuffleLoop, if_true, hdraw]
    rw [← hr]
    apply shuffleLoop_congr
    intro k _ _
    have hne : pos + 1 + (i - k) ≠ pos := by omega
    simp only [hne, if_false]

/-- The loop of `shuffle` is the fold of its swaps. -/
theorem shuffleLoop_eq_foldl {α : Type} (rng : Nat → Nat) :
    ∀ (i pos : Nat) (arr : List (Option α)),
      shuffleLoop rng i pos arr =
        (shuffleSwaps rng i pos).foldl (fun a s => swapAt a s.1 s.2) arr
  | 0, _, _ => rfl
  | i + 1, pos, arr => by
    simp only [shuffleLoop, shuffleSwaps, List.foldl_cons]
    exact shuffleLoop_eq_foldl rng i (pos + 1) _

/-- The loop of `shuffle` entered at `i` performs `i` swaps. -/
theorem shuffleSwaps_length (rng : Nat → Nat) :
    ∀ (i pos : Nat), (shuffleSwaps rng i pos).length = i
  | 0, _ => rfl
  | i + 1, pos => by simp [shuffleSwaps, shuffleSwaps_length rng i (pos + 1)]

/-- Every swap of the loop is at `1 ≤ i` with a drawn `j ≤ i`. -/
theorem shuffleSwaps_bounds (rng : Nat → Nat) :
    ∀ (i pos : Nat), ∀ s ∈ shuffleSwaps rng i pos,
      ∃ j, s.2 = some j ∧ j ≤ s.1 ∧ 1 ≤ s.1 ∧ s.1 ≤ i
  | 0, _, s, hs => by simp [shuffleSwaps] at hs
  | i + 1, pos, s, hs => by
    simp only [shuffleSwaps, List.mem_cons] at hs
    rcases hs with rfl | hs
    · obtain ⟨j, hj, hlt⟩ := randInt_pos (i + 1 + 1) (rng pos) (Nat.succ_pos _)
      exact ⟨j, hj, by omega, by omega, le_refl _⟩
    · obtain ⟨j, hj, h1, h2, h3⟩ := shuffleSwaps_bounds rng i (pos + 1) s hs
      exact ⟨j, hj, h1, h2, by omega⟩

/-- C14: for every array and every random source, whose draws `j` lie in
`[0, i]`, `shuffle` returns a permutation of its input, of the same length and
with the same multiset of elements; it is the result of exactly `n - 1` swaps,
each at an index `1 ≤ i < n` with `j ≤ i`, and of none for arrays of length 0
or 1. -/
theorem shuffle_permutation {α : Type} (rng : Nat → Nat) (pos : Nat)
    (arr : List (Option α)) :
    (shuffle rng pos arr).Perm arr ∧
    (shuffle rng pos arr).length = arr.length ∧
    ((shuffle rng pos arr : List (Option α)) : Multiset (Option α)) = (arr : Multiset (Option α)) ∧
    shuffle rng pos arr =
      (shuffleSwaps rng (arr.length - 1) pos).foldl (fun a s => swapAt a s.1 s.2) arr ∧
    (shuffleSwaps rng (arr.length - 1) pos).length = arr.length - 1 ∧
    (∀ s ∈ shuffleSwaps rng (arr.length - 1) pos,
      ∃ j, s.2 = some j ∧ j ≤ s.1 ∧ 1 ≤ s.1 ∧ s.1 < arr.length) ∧
    (shuffleSwaps rng (([] : List (Option α)).length - 1) pos = [] ∧
      ∀ a : Option α, shuffleSwaps rng ([a].length - 1) pos = []) := by
  have hperm := shuffle_perm rng pos arr
  refine ⟨hperm, hperm.length_eq, Multiset.coe_eq_coe.mpr hperm,
    shuffleLoop_eq_foldl rng _ pos arr, shuffleSwaps_length rng _ pos, ?_, rfl, fun _ => rfl⟩
  intro s hs
  obtain ⟨j, hj, h1, h2, h3⟩ := shuffleSwaps_bounds rng _ pos s hs
  exact ⟨j, hj, h1, h2, by omega⟩

/-- C13: the shuffle is unbiased. On an array of `n` pairwise distinct elements
(`n` within the range of array lengths) every random source draws some `j ≤ i`
at each loop variable `1 ≤ i < n`, every such sequence of draws is drawn by some
source, and the result depends on the draws only; the map from draw sequences to
results is one-to-one and onto the `n!` orderings of the array, so each ordering
comes from exactly one draw sequence. -/
theorem shuffle_bijective {α : Type} (arr : List (Option α)) (pos : Nat)
    (hnd : arr.Nodup) (hlen : arr.length ≤ 2 ^ 32) :
    (∀ (rng : Nat → Nat) (i : Nat), 1 ≤ i → i < arr.length →
      ∃ j, drawAt rng pos arr.length i = some j ∧ j ≤ i) ∧
    (∀ d : Nat → Nat, (∀ i, 1 ≤ i → i < arr.length → d i ≤ i) →
      ∃ rng : Nat → Nat, ∀ i, 1 ≤ i → i < arr.length →
        drawAt rng pos arr.length i = some (d i)) ∧
    (∀ rng rng' : Nat → Nat,
      (∀ i, 1 ≤ i → i < arr.length →
        drawAt rng pos arr.length i = drawAt rng' pos arr.length i) →
      shuffle rng pos arr = shuffle rng' pos arr) ∧
    (∀ rng rng' : Nat → Nat, shuffle rng pos arr = shuffle rng' pos arr →
      ∀ i, 1 ≤ i → i < arr.length →
        drawAt rng pos arr.length i = drawAt rng' pos arr.length i) ∧
    (∀ t : List (Option α), t ∈ arr.permutations ↔ ∃ rng : Nat → Nat, shuffle rng pos arr = t) ∧
    (arr.permutations.Nodup ∧ arr.permutations.length = arr.length.factorial) := by
  refine ⟨?_, ?_, ?_, ?_, ?_, List.nodup_permutations arr hnd, List.length_permutations arr⟩
  · intro rng i _ _
    obtain ⟨j, hj, hlt⟩ := randInt_pos (i + 1) (rng (pos + (arr.length - 1 - i)))
      (Nat.succ_pos _)
    exact ⟨j, hj, by omega⟩
  · intro d hd
    refine ⟨fun p => d (arr.length - 1 - (p - pos)), ?_⟩
    intro i hi1 hi2
    have e : arr.length - 1 - (pos + (arr.length - 1 - i) - pos) = i := by omega
    have hdi := hd i hi1 hi2
    have h1 : d i % 2 ^ 32 = d i := Nat.mod_eq_of_lt (by omega)
    have h2 : d i % (i + 1) = d i := Nat.mod_eq_of_lt (by omega)
    simp only [drawAt, randInt, e]
    rw [if_neg (Nat.succ_ne_zero _), h1, h2]
  · intro rng rng' h
    apply shuffleLoop_congr
    intro k hk1 hk2
    cases arr with
    | nil => simp at hk2; omega
    | cons a as =>
      simp only [List.length_cons, Nat.add_sub_cancel] at hk2 h ⊢
      exact h k hk1 (by omega)
  · intro rng rng' h i hi1 hi2
    cases arr with
    | nil => simp at hi2
    | cons a as =>
      have := shuffleLoop_inj rng rng' as.length pos pos (a :: as) hnd (by simp) h i hi1
        (by simp only [List.length_cons] at hi2; omega)
      simpa [drawAt] using this
  · intro t
    rw [List.mem_permutations]
    constructor
    · intro hp
      cases arr with
      | nil =>
        have : t = [] := List.perm_nil.mp hp
        exact ⟨fun _ => 0, by rw [this]; rfl⟩
      | cons a as =>
        apply shuffleLoop_surj as.length pos (a :: as) t hnd hlen (by simp) hp
        intro k hk
        have hk' : (a :: as).length ≤ k := by simp only [List.length_cons]; omega
        rw [List.getElem?_eq_none hk', List.getElem?_eq_none (by rw [hp.length_eq]; exact hk')]
    · rintro ⟨rng, rfl⟩
      exact shuffle_perm rng pos arr

/-- Witness of C13: the six orderings of a three-element array; one of them. -/
theorem shuffle_bijective_witness :
    ∃ rng : Nat → Nat,
      shuffle rng 0 [some 1, some 2, some 3] = ([some 2, some 1, some 3] : List (Option Nat)) :=
  ((shuffle_bijective ([some 1, some 2, some 3] : List (Option Nat)) 0 (by decide)
    (by norm_num)).2.2.2.2.1 [some 2, some 1, some 3]).mp
    (List.mem_permutations.mpr (List.Perm.swap _ _ _))

/-- Counting below a bound depends on the predicate below the bound only. -/
theorem count_congr_below (p q : Nat → Prop) [DecidablePred p] [DecidablePred q] :
    ∀ n : Nat, (∀ k, k < n → (p k ↔ q k)) → Nat.count p n = Nat.count q n
  | 0, _ => by simp
  | n + 1, h => by
    rw [Nat.count_succ, Nat.count_succ,
      count_congr_below p q n (fun k hk => h k (Nat.lt_succ_of_lt hk))]
    have := h n (Nat.lt_succ_self n)
    by_cases hp : p n
    · rw [if_pos hp, if_pos (this.mp hp)]
    · rw [if_neg hp, if_neg (fun hq => hp (this.mpr hq))]

/-- On a 32-bit word `randInt(max)` is the remainder modulo `max`. -/
theorem randInt_word (max w : Nat) (hmax : 0 < max) (hw : w < 2 ^ 32) :
    randInt max w = some (w % max) := by
  simp only [randInt]
  rw [if_neg (Nat.pos_iff_ne_zero.mp hmax), Nat.mod_eq_of_lt hw]

/-- The number of 32-bit words giving the result `r`: the quotient of `2 ^ 32` by
`max`, plus one for the results below the remainder. -/
theorem wordsGiving_eq (max r : Nat) (hmax : 0 < max) (hr : r < max) :
    wordsGiving max r = 2 ^ 32 / max + if r < 2 ^ 32 % max then 1 else 0 := by
  have hcongr : wordsGiving max r = Nat.count (fun w => w ≡ r [MOD max]) (2 ^ 32) := by
    unfold wordsGiving
    apply count_congr_below
    intro w hw
    rw [randInt_word max w hmax hw]
    simp only [Option.some.injEq, Nat.ModEq, Nat.mod_eq_of_lt hr]
  rw [hcongr, Nat.count_modEq_card (2 ^ 32) hmax r, Nat.mod_eq_of_lt hr]

/-- On a duplicate-free string, the words choosing the unit at index `k` are the
words on which `randInt(str.length)` returns `k`. -/
theorem wordsChoosing_eq (str : JsString) (k c : Nat) (hnd : str.Nodup)
    (hk : str[k]? = some c) : wordsChoosing str c = wordsGiving str.length k := by
  have hkl : k < str.length := by
    by_contra hcon
    rw [List.getElem?_eq_none (by omega)] at hk
    cases hk
  unfold wordsChoosing wordsGiving
  apply count_congr_below
  intro w _
  obtain ⟨j, hj, hlt⟩ := randInt_pos str.length w (by omega)
  simp only [choice, hj, Option.some.injEq]
  constructor
  · intro h
    exact List.getElem?_inj hlt hnd (h.trans hk.symm)
  · intro h
    rw [h, hk]

/-- C15: for every `max` with `1 ≤ max ≤ 2 ^ 32` and every 32-bit word `w`, the
result `w % max` of `randInt` lies in `[0, max)`; over all `2 ^ 32` words the
numbers of words mapped to any two results differ by at most one, and they are
all equal exactly when `max` divides `2 ^ 32`; drawing one of the 26 uppercase
letters is not exactly uniform: the first is drawn on one word more than the
last. -/
theorem randInt_distribution (max : Nat) (h1 : 1 ≤ max) (_h2 : max ≤ 2 ^ 32) :
    (∀ w, w < 2 ^ 32 → randInt max w = some (w % max) ∧ w % max < max) ∧
    (∀ r r', r < max → r' < max → wordsGiving max r ≤ wordsGiving max r' + 1) ∧
    ((∀ r r', r < max → r' < max → wordsGiving max r = wordsGiving max r') ↔ max ∣ 2 ^ 32) ∧
    ((upp false).length = 26 ∧ ¬ (26 ∣ 2 ^ 32) ∧
      wordsGiving 26 0 = 165191050 ∧ wordsGiving 26 25 = 165191049 ∧
      wordsChoosing (upp false) 65 = 165191050 ∧
      wordsChoosing (upp false) 90 = 165191049) := by
  have hmax : 0 < max := h1
  refine ⟨?_, ?_, ?_, ?_⟩
  · intro w hw
    exact ⟨randInt_word max w hmax hw, Nat.mod_lt _ hmax⟩
  · intro r r' hr hr'
    rw [wordsGiving_eq max r hmax hr, wordsGiving_eq max r' hmax hr']
    split_ifs <;> omega
  · constructor
    · intro hall
      by_contra hdvd
      have hrem : 0 < 2 ^ 32 % max := by
        rcases Nat.eq_zero_or_pos (2 ^ 32 % max) with h | h
        · exact absurd (Nat.dvd_of_mod_eq_zero h) hdvd
        · exact h
      have hlt : 2 ^ 32 % max < max := Nat.mod_lt _ hmax
      have h := hall 0 (2 ^ 32 % max) hmax hlt
      rw [wordsGiving_eq max 0 hmax hmax, wordsGiving_eq max _ hmax hlt, if_pos hrem,
        if_neg (lt_irrefl _)] at h
      omega
    · intro hdvd r r' hr hr'
      have hzero : 2 ^ 32 % max = 0 := Nat.mod_eq_zero_of_dvd hdvd
      rw [wordsGiving_eq max r hmax hr, wordsGiving_eq max r' hmax hr', hzero]
      simp
  · have hA : wordsGiving 26 0 = 165191050 := by
      rw [wordsGiving_eq 26 0 (by decide) (by decide)]
      norm_num
    have hZ : wordsGiving 26 25 = 165191049 := by
      rw [wordsGiving_eq 26 25 (by decide) (by decide)]
      norm_num
    have hlen : (upp false).length = 26 := by decide
    refine ⟨hlen, by norm_num, hA, hZ, ?_, ?_⟩
    · rw [wordsChoosing_eq (upp false) 0 65 (by decide) (by decide), hlen, hA]
    · rw [wordsChoosing_eq (upp false) 25 90 (by decide) (by decide), hlen, hZ]

/-- Witness of C15: `max = 26`, the length of the uppercase class. -/
theorem randInt_distribution_witness :
    (∀ r r', r < 26 → r' < 26 → wordsGiving 26 r = wordsGiving 26 r') ↔ 26 ∣ 2 ^ 32 :=
  (randInt_distribution 26 (by decide) (by norm_num)).2.2.1

end PasswordGenerator
